import Mathlib

/-!
The program go-shred: overwrite, truncate, unlink.

A shallow embedding of `shred.go` and `main.go`.  The Go functions `Shred`,
`shredFile`, `shredFileWithOptions`, `overWriteWithRandomData` and `main` are
translated statement by statement into a state-and-error monad `M` over a model
of the operating system (`Sys`).  The operating-system calls the Go code makes
(`os.OpenFile`, `File.Stat`, `File.Seek`, `io.CopyN` from `rand.Reader`,
`File.Sync`, `File.Truncate`, `File.Close`, `os.Remove`) are modelled in the
namespaces `os`, `File`, `io` and `fmt`; every one of them can fail, driven by a
fault plan carried in the state, and every call is recorded in a log.

What the model of the operating system covers: a namespace of names that denote
regular files (by inode number, so hard links are possible), directories and
symbolic links; file contents as lists of bytes; write permission per file; one
descriptor with its offset; a random byte source.  What it leaves out: other
processes changing the files during the call, and durability (`Sync` is logged,
its effect on the storage device is not modelled).  Path resolution follows at
most 40 symbolic links and then answers `ELOOP`, as Linux does.  The namespace is
keyed by paths as they are spelled, taken in normal form (components separated by
one `/`, no `.` or `..` component, no trailing `/`), and the target of a symbolic
link is the name it denotes; `open` and `unlink` walk the leading components of
the path first and answer `ENOENT` or `ENOTDIR` when one of them is missing or
is not a directory.  Any call can also fail for a reason outside the model
(`EMFILE`, `ENAMETOOLONG`, `EIO`, `ENOSPC`, ...): that is what the fault plan is
for.
-/

namespace GoShred

/-! ## Go error values -/

/-- Leaf error values: a `syscall.Errno`, `os.ErrClosed`, or any other
`errors.New` value (`io.ErrShortWrite`, `io.EOF`, ...). -/
inductive ErrVal where
  | errno (n : Nat)
  | errClosed
  | text (msg : String)
  deriving DecidableEq, Repr

/-- A Go `error` as `main` can tell them apart: a `*os.PathError` wrapping a leaf
value, or a leaf value returned as it is. -/
inductive GoError where
  | pathError (op path : String) (err : ErrVal)
  | bare (err : ErrVal)
  deriving DecidableEq, Repr

def ENOENT : Nat := 2
def EIO : Nat := 5
def EACCES : Nat := 13
def ENOTDIR : Nat := 20
def EISDIR : Nat := 21
def EINVAL : Nat := 22
def ELOOP : Nat := 40

/-! ## The operating system -/

/-- What a name of the namespace denotes. -/
inductive Node where
  | file (ino : Nat)
  | dir
  | symlink (target : String)
  deriving DecidableEq, Repr

/-- A regular file: its bytes, and whether the caller may open it for writing. -/
structure Inode where
  content : List Nat
  writable : Bool
  deriving DecidableEq, Repr

/-- The open file description behind the one descriptor the program holds. -/
structure Desc where
  ino : Nat
  offset : Nat
  deriving DecidableEq, Repr

/-- An injected failure of one call.  `cause` is the error value; for `io.CopyN`,
`fromReader` says whether the random source (rather than the file write) failed
and `progress` bounds the bytes already written when it did. -/
structure Fault where
  cause : ErrVal
  fromReader : Bool
  progress : Nat
  deriving DecidableEq, Repr

/-- The calls the program makes on the operating system. -/
inductive Op where
  | openFile (path : String)
  | stat
  | seek (offset : Int) (whence : Int)
  | copyN (n : Int)
  | sync
  | truncate (size : Int)
  | close
  | remove (path : String)
  deriving DecidableEq, Repr

/-- One logged call and the error it returned (`none` for `nil`). -/
structure Event where
  op : Op
  err : Option GoError
  deriving DecidableEq, Repr

/-- An operand of `fmt.Println` / `fmt.Fprintln`. -/
inductive PrintArg where
  | str (s : String)
  | err (e : GoError)
  deriving DecidableEq, Repr

/-- The state of the world: namespace, inode table, the process's descriptor, the
fault plan (one entry consumed per system call), the random byte source and how
far it has been read, the log of calls, and the two output streams. -/
structure Sys where
  names : String → Option Node
  inodes : Nat → Option Inode
  fd : Option Desc
  plan : List (Option Fault)
  rand : Nat → Nat
  randPos : Nat
  log : List Event
  stdout : List (List PrintArg)
  stderr : List (List PrintArg)

/-- Computations that may fail with a Go error; the state survives a failure. -/
def M (α : Type) : Type := Sys → Except GoError α × Sys

def M.pure {α : Type} (a : α) : M α := fun s => (.ok a, s)

def M.bind {α β : Type} (m : M α) (f : α → M β) : M β := fun s =>
  match m s with
  | (.error e, s1) => (.error e, s1)
  | (.ok a, s1) => f a s1

instance : Monad M where
  pure := M.pure
  bind := M.bind

/-- The Go idiom `if err != nil { h; return err }`. -/
def onErr {α : Type} (m : M α) (h : M Unit) : M α := fun s =>
  match m s with
  | (.error e, s1) => (.error e, (h s1).2)
  | (.ok a, s1) => (.ok a, s1)

/-- A call whose returned error is dropped. -/
def discard {α : Type} (m : M α) : M Unit := fun s => (.ok (), (m s).2)

/-- The statement `defer cleanup` followed by `body`: the cleanup runs on every
exit of the body and its result is dropped. -/
def withDefer {α β : Type} (cleanup : M β) (body : M α) : M α := fun s =>
  let r := body s
  (r.1, (cleanup r.2).2)

/-- The fault planned for the next system call. -/
def Sys.fault (s : Sys) : Option Fault := s.plan.head?.join

/-- The fault planned for the call that comes `k` system calls after the next
one. -/
def Sys.faultAt (s : Sys) (k : Nat) : Option Fault := ((s.plan.drop k).head?).join

/-- The events that `s2` has logged beyond those of `s`. -/
def Sys.since (s s2 : Sys) : List Event := s2.log.drop s.log.length

/-- Record a system call: consume its plan entry and log it. -/
def Sys.call (s : Sys) (op : Op) (err : Option GoError) : Sys :=
  { s with plan := s.plan.tail, log := s.log ++ [⟨op, err⟩] }

/-- Record a call that the Go runtime answers without a system call. -/
def Sys.note (s : Sys) (op : Op) (err : Option GoError) : Sys :=
  { s with log := s.log ++ [⟨op, err⟩] }

/-- Path resolution, following at most `fuel` symbolic links: the name reached
and what it denotes. -/
def resolve (names : String → Option Node) : Nat → String → Except Nat (String × Node)
  | 0, path =>
    match names path with
    | none => .error ENOENT
    | some (.symlink _) => .error ELOOP
    | some node => .ok (path, node)
  | fuel + 1, path =>
    match names path with
    | none => .error ENOENT
    | some (.symlink target) => resolve names fuel target
    | some node => .ok (path, node)

/-- The regular file a path leads to, through symbolic links: the name that
holds it, its inode number and the inode. -/
def Sys.fileAt (s : Sys) (path : String) : Option (String × Nat × Inode) :=
  match resolve s.names 40 path with
  | .ok (q, .file ino) => (s.inodes ino).map fun i => (q, ino, i)
  | _ => none

/-- A Go `*os.File`; the descriptor state lives in `Sys.fd`. -/
structure File where
  name : String
  deriving DecidableEq, Repr

/-- The `os.FileInfo` of a regular file, as far as the program reads it. -/
structure FileInfo where
  size : Int
  deriving DecidableEq, Repr

def FileInfo.Size (fi : FileInfo) : Int := fi.size

/-- Bytes `pos, pos+1, ..., pos+k-1` of the random source. -/
def randBytes (rand : Nat → Nat) (pos k : Nat) : List Nat :=
  (List.range k).map fun j => rand (pos + j) % 256

/-- Writing `data` into `content` at offset `off` (a hole is filled with zeros). -/
def writeAt (content : List Nat) (off : Nat) (data : List Nat) : List Nat :=
  (content ++ List.replicate (off - content.length) 0).take off ++ data
    ++ content.drop (off + data.length)

/-- Resizing `content` to `n` bytes. -/
def resize (content : List Nat) (n : Nat) : List Nat :=
  (content ++ List.replicate (n - content.length) 0).take n

def Sys.setInode (s : Sys) (ino : Nat) (i : Inode) : Sys :=
  { s with inodes := Function.update s.inodes ino (some i) }

def fmt.Println (args : List PrintArg) : M Unit := fun s =>
  (.ok (), { s with stdout := s.stdout ++ [args] })

def fmt.FprintlnStderr (args : List PrintArg) : M Unit := fun s =>
  (.ok (), { s with stderr := s.stderr ++ [args] })

/-- The directories a path leads through: its proper initial segments that end
just before a `/` (the root itself left out), outermost first.  The first
argument is the part of the path already read, reversed. -/
def leadingDirsFrom : List Char → List Char → List String
  | _, [] => []
  | pre, c :: cs =>
    if c = '/' then
      (if pre = [] ∨ pre.head? = some '/' then [] else [String.mk pre.reverse])
        ++ leadingDirsFrom (c :: pre) cs
    else leadingDirsFrom (c :: pre) cs

def leadingDirs (path : String) : List String :=
  leadingDirsFrom [] path.data

/-- Walking the leading components of a path: `ENOENT` when one is missing,
`ENOTDIR` when one is not a directory (nor a link to one), `none` when all are
directories. -/
def leadingError (names : String → Option Node) : List String → Option Nat
  | [] => none
  | p :: ps =>
    match resolve names 40 p with
    | .error n => some n
    | .ok (_, .dir) => leadingError names ps
    | .ok (_, _) => some ENOTDIR

/-- Whether the path ends in a `/`, and so can only denote a directory. -/
def endsWithSlash (path : String) : Bool :=
  path.data.getLast? == some '/'

/-- Walking a path up to its last component, for a call that wants a file there:
the error of the leading components if there is one, `EISDIR` when the path
ends in a `/` (all before it being directories, it denotes one), else `none`. -/
def walkError (names : String → Option Node) (path : String) : Option Nat :=
  match leadingError names (leadingDirs path) with
  | some n => some n
  | none => if endsWithSlash path then some EISDIR else none

/-- The outcome of `open(2)` with `O_WRONLY`: the inode opened, or the error.  A
failure planned for the call (`EMFILE`, `ENAMETOOLONG`, `EINTR`, ...) comes
first; then the path is walked up to its last component; then the name itself
is resolved. -/
def openOutcome (s : Sys) (name : String) : Except ErrVal Nat :=
  match s.fault with
  | some f => .error f.cause
  | none =>
    match walkError s.names name with
    | some n => .error (.errno n)
    | none =>
      match resolve s.names 40 name with
      | .error n => .error (.errno n)
      | .ok (_, .dir) => .error (.errno EISDIR)
      | .ok (_, .symlink _) => .error (.errno ELOOP)
      | .ok (_, .file ino) =>
        match s.inodes ino with
        | none => .error (.errno EIO)
        | some i => if i.writable then .ok ino else .error (.errno EACCES)

/-- The call `os.OpenFile(name, os.O_WRONLY, 0)`. -/
def os.OpenFile (name : String) : M File := fun s =>
  match openOutcome s name with
  | .error c =>
    let e := GoError.pathError "open" name c
    (.error e, s.call (.openFile name) (some e))
  | .ok ino =>
    (.ok ⟨name⟩, { s.call (.openFile name) none with fd := some ⟨ino, 0⟩ })

/-- The call `file.Stat()`: the size is read from the open file, not the path. -/
def File.Stat (f : File) : M FileInfo := fun s =>
  match s.fd with
  | none =>
    let e := GoError.pathError "stat" f.name .errClosed
    (.error e, s.note .stat (some e))
  | some d =>
    match s.fault, s.inodes d.ino with
    | some ft, _ =>
      let e := GoError.pathError "stat" f.name ft.cause
      (.error e, s.call .stat (some e))
    | none, none =>
      let e := GoError.pathError "stat" f.name (.errno EIO)
      (.error e, s.call .stat (some e))
    | none, some i => (.ok ⟨i.content.length⟩, s.call .stat none)

/-- The position `lseek(2)` moves to, or `none` when it answers `EINVAL`. -/
def seekTarget (s : Sys) (d : Desc) (offset whence : Int) : Option Nat :=
  let base : Option Int :=
    if whence = 0 then some 0
    else if whence = 1 then some (d.offset : Int)
    else if whence = 2 then (s.inodes d.ino).map fun i => (i.content.length : Int)
    else none
  match base with
  | none => none
  | some b => if b + offset < 0 then none else some (b + offset).toNat

/-- The call `file.Seek(offset, whence)`; the returned position is not used. -/
def File.Seek (f : File) (offset : Int) (whence : Int) : M Unit := fun s =>
  match s.fd with
  | none =>
    let e := GoError.pathError "seek" f.name .errClosed
    (.error e, s.note (.seek offset whence) (some e))
  | some d =>
    match s.fault with
    | some ft =>
      let e := GoError.pathError "seek" f.name ft.cause
      (.error e, s.call (.seek offset whence) (some e))
    | none =>
      match seekTarget s d offset whence with
      | none =>
        let e := GoError.pathError "seek" f.name (.errno EINVAL)
        (.error e, s.call (.seek offset whence) (some e))
      | some pos =>
        (.ok (), { s.call (.seek offset whence) none with fd := some ⟨d.ino, pos⟩ })

/-- The call `io.CopyN(file, rand.Reader, n)`: `n` random bytes written at the current
offset; on a failure only the first `progress` of them.  The copy goes through a
buffer of 32768 bytes (of `n` bytes when `n` is smaller), so when a write fails
the source has been read to the end of the chunk being written. -/
def io.CopyN (dst : File) (n : Int) : M Unit := fun s =>
  match s.fd with
  | none =>
    let e := GoError.pathError "write" dst.name .errClosed
    (.error e, s.note (.copyN n) (some e))
  | some d =>
    match s.inodes d.ino with
    | none =>
      let e := GoError.pathError "write" dst.name (.errno EIO)
      (.error e, s.call (.copyN n) (some e))
    | some i =>
      match s.fault with
      | some ft =>
        let data := randBytes s.rand s.randPos (min ft.progress n.toNat)
        let e := if ft.fromReader then GoError.bare ft.cause
                 else GoError.pathError "write" dst.name ft.cause
        (.error e,
          { (s.call (.copyN n) (some e)).setInode d.ino
              { i with content := writeAt i.content d.offset data } with
            fd := some ⟨d.ino, d.offset + data.length⟩
            randPos := s.randPos +
              (if ft.fromReader then data.length
               else min n.toNat ((data.length / 32768 + 1) * 32768)) })
      | none =>
        let data := randBytes s.rand s.randPos n.toNat
        (.ok (),
          { (s.call (.copyN n) none).setInode d.ino
              { i with content := writeAt i.content d.offset data } with
            fd := some ⟨d.ino, d.offset + data.length⟩
            randPos := s.randPos + data.length })

/-- The call `file.Sync()`; durability itself is not modelled, only the call. -/
def File.Sync (f : File) : M Unit := fun s =>
  match s.fd with
  | none =>
    let e := GoError.pathError "sync" f.name .errClosed
    (.error e, s.note .sync (some e))
  | some _ =>
    match s.fault with
    | some ft =>
      let e := GoError.pathError "sync" f.name ft.cause
      (.error e, s.call .sync (some e))
    | none => (.ok (), s.call .sync none)

/-- The call `file.Truncate(size)`. -/
def File.Truncate (f : File) (size : Int) : M Unit := fun s =>
  match s.fd with
  | none =>
    let e := GoError.pathError "truncate" f.name .errClosed
    (.error e, s.note (.truncate size) (some e))
  | some d =>
    match s.fault, s.inodes d.ino with
    | some ft, _ =>
      let e := GoError.pathError "truncate" f.name ft.cause
      (.error e, s.call (.truncate size) (some e))
    | none, none =>
      let e := GoError.pathError "truncate" f.name (.errno EIO)
      (.error e, s.call (.truncate size) (some e))
    | none, some i =>
      if size < 0 then
        let e := GoError.pathError "truncate" f.name (.errno EINVAL)
        (.error e, s.call (.truncate size) (some e))
      else
        (.ok (), (s.call (.truncate size) none).setInode d.ino
                    { i with content := resize i.content size.toNat })

/-- The call `file.Close()`: the descriptor is released whether or not the call reports an
error; closing a closed file reports `os.ErrClosed`. -/
def File.Close (f : File) : M Unit := fun s =>
  match s.fd with
  | none =>
    let e := GoError.pathError "close" f.name .errClosed
    (.error e, s.note .close (some e))
  | some _ =>
    match s.fault with
    | some ft =>
      let e := GoError.pathError "close" f.name ft.cause
      (.error e, { s.call .close (some e) with fd := none })
    | none => (.ok (), { s.call .close none with fd := none })

/-- The call `os.Remove(name)`: the name itself is unlinked (a symbolic link is not
followed). -/
def os.Remove (name : String) : M Unit := fun s =>
  match s.fault with
  | some ft =>
    let e := GoError.pathError "remove" name ft.cause
    (.error e, s.call (.remove name) (some e))
  | none =>
    match leadingError s.names (leadingDirs name) with
    | some n =>
      let e := GoError.pathError "remove" name (.errno n)
      (.error e, s.call (.remove name) (some e))
    | none =>
      match s.names name with
      | none =>
        let e := GoError.pathError "remove" name (.errno ENOENT)
        (.error e, s.call (.remove name) (some e))
      | some _ =>
        (.ok (), { s.call (.remove name) none with
                    names := Function.update s.names name none })

/-- The loop body of `overWriteWithRandomData`, run for the `k` remaining
values of `i`. -/
def overWritePasses (file : File) (size : Int) : Nat → M Unit
  | 0 => pure ()
  | k + 1 => do
    file.Seek 0 0
    io.CopyN file size
    file.Sync
    overWritePasses file size k

/-- The function `overWriteWithRandomData`: `for i := 0; i < passes; i++`. -/
def overWriteWithRandomData (file : File) (size : Int) (passes : Int) : M Unit :=
  overWritePasses file size passes.toNat

/-- The part of `shredFileWithOptions` that runs under `defer file.Close()`. -/
def shredOpened (file : File) (path : String) (truncateAfter deleteAfter : Bool) :
    M Unit := do
  let lstat ← onErr file.Stat (fmt.Println [.str "Error getting file info:", .str path])
  if lstat.Size > 0 then
    overWriteWithRandomData file lstat.Size 3
  if truncateAfter then
    file.Truncate 0
    file.Sync
  discard file.Close
  if deleteAfter then
    os.Remove path

def shredFileWithOptions (path : String) (truncateAfter deleteAfter : Bool) : M Unit := do
  fmt.Println [.str "Shredding file:", .str path]
  let file ← onErr (os.OpenFile path) (fmt.Println [.str "Error opening file:", .str path])
  withDefer file.Close (shredOpened file path truncateAfter deleteAfter)

def shredFile (path : String) (deleteAfter : Bool) : M Unit :=
  shredFileWithOptions path true deleteAfter

def Shred (path : String) : M Unit :=
  shredFile path true

/-- The conversion `int(errno)` of a `uintptr` on a 64-bit platform. -/
def intOfUintptr (n : Nat) : Int :=
  if n % 2 ^ 64 < 2 ^ 63 then (n % 2 ^ 64 : Nat) else (n % 2 ^ 64 : Nat) - 2 ^ 64

/-- The status `main` hands to `os.Exit` for an error of `Shred`. -/
def exitCodeOf : GoError → Int
  | .pathError _ _ (.errno n) => intOfUintptr n
  | _ => 1

/-- The function `main`: the exit status of the process and the final state. -/
def main (args : List String) (s : Sys) : Int × Sys :=
  match args with
  | _ :: arg :: _ =>
    match Shred arg s with
    | (.ok _, s1) => (0, s1)
    | (.error err, s1) =>
      (exitCodeOf err, (fmt.FprintlnStderr [.str "Shred error:", .err err] s1).2)
  | _ => (1, (fmt.FprintlnStderr [.str "Usage: go-shred <file>"] s).2)

/-! ## Vocabulary of the statements and sample worlds -/

instance {α : Type} [DecidableEq α] : DecidableEq (Except GoError α)
  | .ok a, .ok b =>
    if h : a = b then isTrue (by rw [h]) else isFalse (fun h2 => h (Except.ok.inj h2))
  | .error a, .error b =>
    if h : a = b then isTrue (by rw [h]) else isFalse (fun h2 => h (Except.error.inj h2))
  | .ok _, .error _ => isFalse (fun h => by cases h)
  | .error _, .ok _ => isFalse (fun h => by cases h)

/-- The error part of a result (`none` for Go's `nil`). -/
def errOf {α : Type} : Except GoError α → Option GoError
  | .ok _ => none
  | .error e => some e

/-- What `shredOpened` does once `file.Stat()` has answered. -/
def afterStat (file : File) (path : String) (truncateAfter deleteAfter : Bool)
    (lstat : FileInfo) : M Unit :=
  (if lstat.Size > 0 then overWriteWithRandomData file lstat.Size 3 else pure ()) >>= fun _ =>
  (if truncateAfter then file.Truncate 0 >>= fun _ => file.Sync else pure ()) >>= fun _ =>
  discard file.Close >>= fun _ =>
  (if deleteAfter then os.Remove path else pure ())

/-- The calls of `k` overwrite passes. -/
def passOps (size : Int) : Nat → List Op
  | 0 => []
  | k + 1 => [.seek 0 0, .copyN size, .sync] ++ passOps size k

/-- The calls of `shredOpened` after `file.Stat()` has reported `size`, when
nothing fails. -/
def bodyOps (path : String) (size : Int) (truncateAfter deleteAfter : Bool) : List Op :=
  (if size > 0 then passOps size 3 else []) ++
    ((if truncateAfter then [.truncate 0, .sync] else []) ++
      ([.close] ++ (if deleteAfter then [.remove path] else [])))

/-- The relation `Runs ops evs r`: the logged events `evs` are a run of the
planned calls `ops` that returns `r`.  Calls are made in order; a call other
than `close` that reports an error ends the run with that error; what `close`
reports is ignored. -/
inductive Runs : List Op → List Event → Option GoError → Prop
  | done : Runs [] [] none
  | step {op : Op} {ops : List Op} {evs : List Event} {r : Option GoError} :
      op ≠ .close → Runs ops evs r → Runs (op :: ops) (⟨op, none⟩ :: evs) r
  | fail {op : Op} {ops : List Op} {e : GoError} :
      op ≠ .close → Runs (op :: ops) [⟨op, some e⟩] (some e)
  | closed {ops : List Op} {evs : List Event} {r c : Option GoError} :
      Runs ops evs r → Runs (.close :: ops) (⟨.close, c⟩ :: evs) r

/-- The program `m` logs a run of the calls `ops`, whatever the state. -/
def Exec {α : Type} (m : M α) (ops : List Op) : Prop :=
  ∀ s, ∃ evs, (m s).2.log = s.log ++ evs ∧ Runs ops evs (errOf (m s).1)

/-- The content of a file of `n` bytes after `k` successful overwrite passes that
started reading the random source at `pos`. -/
def lastPass (rand : Nat → Nat) (pos n : Nat) (c : List Nat) : Nat → List Nat
  | 0 => c
  | k + 1 => randBytes rand (pos + k * n) n

/-- The content left by the overwrite stage of `shredFileWithOptions` in a file
that held `c`: the bytes of the third pass, or `c` itself when it is empty. -/
def overwritten (rand : Nat → Nat) (pos : Nat) (c : List Nat) : List Nat :=
  lastPass rand pos c.length c (if 0 < c.length then 3 else 0)

/-- A sample world: a three-byte file `a`, a symbolic link `l` to it, a directory
`d`, an empty file `e`, a read-only file `r`; no faults planned; the random
source delivers 10, 11, 12, ... -/
def demo : Sys :=
  { names := fun p =>
      if p = "a" then some (.file 1)
      else if p = "l" then some (.symlink "a")
      else if p = "d" then some .dir
      else if p = "e" then some (.file 2)
      else if p = "r" then some (.file 3)
      else none
    inodes := fun n =>
      if n = 1 then some ⟨[1, 2, 3], true⟩
      else if n = 2 then some ⟨[], true⟩
      else if n = 3 then some ⟨[7], false⟩
      else none
    fd := none
    plan := []
    rand := fun j => j + 10
    randPos := 0
    log := []
    stdout := []
    stderr := [] }

/-- The sample world with a random source that happens to deliver 1, 2, 3 over
and over. -/
def demoUnlucky : Sys :=
  { demo with rand := fun j => j % 3 + 1 }

/-- A world in which the write of the second pass fails after one byte. -/
def demoFault : Sys :=
  { demo with plan := [none, none, none, none, none, none, some ⟨.errno 28, false, 1⟩] }

/-- An error number as Linux system calls report them lies in `1 .. 4095`; the
Go `syscall` package builds an `Errno` error only from a non-zero number. -/
def validErrno (c : ErrVal) : Bool :=
  match c with
  | .errno n => decide (0 < n ∧ n < 4096)
  | _ => true

def GoError.osValid : GoError → Bool
  | .pathError _ _ c => validErrno c
  | .bare c => validErrno c

/-- Every planned fault carries an error number the system can report. -/
def planValid (plan : List (Option Fault)) : Bool :=
  plan.all fun x =>
    match x with
    | none => true
    | some ft => validErrno ft.cause

/-- The program `m` keeps the plan valid and returns only errors the system can
report. -/
def ValidM {α : Type} (m : M α) : Prop :=
  ∀ s, planValid s.plan = true →
    planValid (m s).2.plan = true ∧ ∀ e, (m s).1 = .error e → e.osValid = true

/-! ## Reasoning about `M` -/

theorem bind_apply {α β : Type} (m : M α) (f : α → M β) (s : Sys) :
    (m >>= f) s = match m s with
      | (.error e, s1) => (.error e, s1)
      | (.ok a, s1) => f a s1 := rfl

theorem pure_apply {α : Type} (a : α) (s : Sys) : (pure a : M α) s = (.ok a, s) := rfl

theorem bind_ok {α β : Type} {m : M α} {f : α → M β} {s s2 : Sys} {b : β} :
    (m >>= f) s = (.ok b, s2) ↔ ∃ a s1, m s = (.ok a, s1) ∧ f a s1 = (.ok b, s2) := by
  rw [bind_apply]
  rcases h : m s with ⟨_ | a, s1⟩
  · simp
  · constructor
    · intro h2
      exact ⟨a, s1, rfl, h2⟩
    · rintro ⟨a2, s3, h3, h4⟩
      cases h3
      exact h4

theorem M_pure_bind {α β : Type} (a : α) (f : α → M β) : (pure a >>= f) = f a := rfl

theorem M_bind_assoc {α β γ : Type} (m : M α) (f : α → M β) (g : β → M γ) :
    (m >>= f >>= g) = (m >>= fun a => f a >>= g) := by
  funext s
  simp only [bind_apply]
  rcases m s with ⟨_ | a, s1⟩ <;> rfl

theorem onErr_ok {α : Type} {m : M α} {h : M Unit} {s s1 : Sys} {a : α} :
    onErr m h s = (.ok a, s1) ↔ m s = (.ok a, s1) := by
  unfold onErr
  rcases hm : m s with ⟨_ | a, s1⟩ <;> simp

theorem overWritePasses_zero (file : File) (size : Int) :
    overWritePasses file size 0 = pure () := rfl

theorem overWritePasses_succ (file : File) (size : Int) (k : Nat) :
    overWritePasses file size (k + 1) =
      (file.Seek 0 0 >>= fun _ => io.CopyN file size >>= fun _ =>
        file.Sync >>= fun _ => overWritePasses file size k) := rfl

theorem shredOpened_eq (file : File) (path : String) (t d : Bool) :
    shredOpened file path t d =
      (onErr file.Stat (fmt.Println [.str "Error getting file info:", .str path]) >>=
        afterStat file path t d) := by
  unfold shredOpened afterStat
  congr 1
  funext lstat
  by_cases h1 : lstat.Size > 0 <;> cases t <;>
    simp only [h1, if_true, if_false, M_pure_bind, M_bind_assoc, Bool.false_eq_true]

theorem shredFileWithOptions_eq (path : String) (t d : Bool) :
    shredFileWithOptions path t d =
      (fmt.Println [.str "Shredding file:", .str path] >>= fun _ =>
        onErr (os.OpenFile path) (fmt.Println [.str "Error opening file:", .str path]) >>=
          fun file => withDefer file.Close (shredOpened file path t d)) := rfl

/-! ## The log of a run -/

theorem Runs.append_fail {a b : List Op} {evs : List Event} {r : Option GoError}
    (h : Runs a evs r) (hr : r ≠ none) : Runs (a ++ b) evs r := by
  induction h with
  | done => exact absurd rfl hr
  | step hop _ ih => exact Runs.step hop (ih hr)
  | fail hop => exact Runs.fail hop
  | closed _ ih => exact Runs.closed (ih hr)

theorem Runs.append {a b : List Op} {e1 e2 : List Event} {r0 r : Option GoError}
    (h1 : Runs a e1 r0) (hr : r0 = none) (h2 : Runs b e2 r) :
    Runs (a ++ b) (e1 ++ e2) r := by
  induction h1 with
  | done => simpa using h2
  | step hop _ ih => exact Runs.step hop (ih hr)
  | fail hop => cases hr
  | closed _ ih => exact Runs.closed (ih hr)

theorem exec_pure {α : Type} (a : α) : Exec (pure a : M α) [] :=
  fun s => ⟨[], by simp [pure_apply], Runs.done⟩

theorem exec_bind {α β : Type} {m : M α} {f : α → M β} {a b : List Op}
    (hm : Exec m a) (hf : ∀ x, Exec (f x) b) : Exec (m >>= f) (a ++ b) := by
  intro s
  obtain ⟨e1, hl1, hr1⟩ := hm s
  rw [bind_apply]
  rcases hms : m s with ⟨err | x, s1⟩
  · rw [hms] at hl1 hr1
    exact ⟨e1, hl1, Runs.append_fail hr1 (by simp [errOf])⟩
  · rw [hms] at hl1 hr1
    obtain ⟨e2, hl2, hr2⟩ := hf x s1
    refine ⟨e1 ++ e2, ?_, Runs.append hr1 rfl hr2⟩
    simp only [hl2]
    simp only [] at hl1
    rw [hl1, List.append_assoc]

theorem exec_ite {α : Type} {c : Prop} [Decidable c] {m1 m2 : M α} {a b : List Op}
    (h1 : Exec m1 a) (h2 : Exec m2 b) :
    Exec (if c then m1 else m2) (if c then a else b) := by
  by_cases hc : c <;> simp [hc, h1, h2]

theorem exec_onErr_println {α : Type} {m : M α} {ops : List Op} (args : List PrintArg)
    (hm : Exec m ops) : Exec (onErr m (fmt.Println args)) ops := by
  intro s
  obtain ⟨evs, hl, hr⟩ := hm s
  unfold onErr
  rcases hms : m s with ⟨err | x, s1⟩
  · rw [hms] at hl hr
    exact ⟨evs, hl, hr⟩
  · rw [hms] at hl hr
    exact ⟨evs, hl, hr⟩

theorem exec_stat (f : File) : Exec f.Stat [.stat] := by
  intro s
  unfold File.Stat
  repeat' split
  all_goals first
    | exact ⟨[_], rfl, Runs.fail (by simp)⟩
    | exact ⟨[_], rfl, Runs.step (by simp) Runs.done⟩

theorem exec_seek (f : File) (offset whence : Int) :
    Exec (f.Seek offset whence) [.seek offset whence] := by
  intro s
  unfold File.Seek
  repeat' split
  all_goals first
    | exact ⟨[_], rfl, Runs.fail (by simp)⟩
    | exact ⟨[_], rfl, Runs.step (by simp) Runs.done⟩

theorem exec_copyN (f : File) (n : Int) : Exec (io.CopyN f n) [.copyN n] := by
  intro s
  unfold io.CopyN
  repeat' split
  all_goals first
    | exact ⟨[_], rfl, Runs.fail (by simp)⟩
    | exact ⟨[_], rfl, Runs.step (by simp) Runs.done⟩

theorem exec_sync (f : File) : Exec f.Sync [.sync] := by
  intro s
  unfold File.Sync
  repeat' split
  all_goals first
    | exact ⟨[_], rfl, Runs.fail (by simp)⟩
    | exact ⟨[_], rfl, Runs.step (by simp) Runs.done⟩

theorem exec_truncate (f : File) (size : Int) : Exec (f.Truncate size) [.truncate size] := by
  intro s
  unfold File.Truncate
  repeat' split
  all_goals first
    | exact ⟨[_], rfl, Runs.fail (by simp)⟩
    | exact ⟨[_], rfl, Runs.step (by simp) Runs.done⟩

theorem Close_log (f : File) (s : Sys) :
    ∃ c, (f.Close s).2.log = s.log ++ [⟨.close, c⟩] := by
  unfold File.Close
  repeat' split
  all_goals exact ⟨_, rfl⟩

theorem exec_discardClose (f : File) : Exec (discard f.Close) [.close] := by
  intro s
  obtain ⟨c, hc⟩ := Close_log f s
  exact ⟨[⟨.close, c⟩], hc, Runs.closed Runs.done⟩

theorem exec_remove (name : String) : Exec (os.Remove name) [.remove name] := by
  intro s
  unfold os.Remove
  repeat' split
  all_goals first
    | exact ⟨[_], rfl, Runs.fail (by simp)⟩
    | exact ⟨[_], rfl, Runs.step (by simp) Runs.done⟩

theorem exec_overWritePasses (f : File) (size : Int) (k : Nat) :
    Exec (overWritePasses f size k) (passOps size k) := by
  induction k with
  | zero => exact exec_pure ()
  | succ k ih =>
    rw [overWritePasses_succ]
    show Exec _ ([.seek 0 0] ++ ([.copyN size] ++ ([.sync] ++ passOps size k)))
    exact exec_bind (exec_seek f 0 0) fun _ =>
      exec_bind (exec_copyN f size) fun _ => exec_bind (exec_sync f) fun _ => ih

theorem exec_afterStat (f : File) (path : String) (t d : Bool) (lstat : FileInfo) :
    Exec (afterStat f path t d lstat) (bodyOps path lstat.size t d) := by
  unfold afterStat bodyOps
  refine exec_bind (exec_ite (exec_overWritePasses f _ 3) (exec_pure ())) fun _ => ?_
  refine exec_bind (exec_ite ?_ (exec_pure ())) fun _ => ?_
  · exact exec_bind (exec_truncate f 0) fun _ => exec_sync f
  · exact exec_bind (exec_discardClose f) fun _ => exec_ite (exec_remove path) (exec_pure ())

/-! ## What the successful calls do to the state -/

theorem randBytes_length (rand : Nat → Nat) (pos k : Nat) :
    (randBytes rand pos k).length = k := by
  simp [randBytes]

theorem writeAt_zero_full (c data : List Nat) (h : data.length = c.length) :
    writeAt c 0 data = data := by
  simp [writeAt, h]

theorem resize_zero (c : List Nat) : resize c 0 = [] := by
  simp [resize]

theorem Stat_ok {f : File} {s s1 : Sys} {fi : FileInfo} (h : f.Stat s = (.ok fi, s1)) :
    ∃ d i, s.fd = some d ∧ s.inodes d.ino = some i ∧ fi.size = i.content.length ∧
      s1 = s.call .stat none := by
  unfold File.Stat at h
  split at h
  · simp at h
  · rename_i d hd
    split at h
    · simp at h
    · simp at h
    · rename_i i hf hi
      simp only [Prod.mk.injEq, Except.ok.injEq] at h
      exact ⟨d, i, hd, hi, by rw [← h.1], h.2.symm⟩

theorem Seek_ok {f : File} {s s1 : Sys} {u : Unit} (h : f.Seek 0 0 s = (.ok u, s1)) :
    ∃ d, s.fd = some d ∧ s1 = { s.call (.seek 0 0) none with fd := some ⟨d.ino, 0⟩ } := by
  unfold File.Seek at h
  split at h
  · simp at h
  · rename_i d hd
    split at h
    · simp at h
    · split at h
      · simp at h
      · rename_i pos hpos
        simp only [seekTarget, if_true] at hpos
        simp at hpos
        simp only [Prod.mk.injEq] at h
        refine ⟨d, hd, ?_⟩
        rw [← h.2, ← hpos]

theorem CopyN_ok {f : File} {n : Int} {s s1 : Sys} {u : Unit}
    (h : io.CopyN f n s = (.ok u, s1)) :
    ∃ d i, s.fd = some d ∧ s.inodes d.ino = some i ∧
      s1 = { (s.call (.copyN n) none).setInode d.ino
              ⟨writeAt i.content d.offset (randBytes s.rand s.randPos n.toNat), i.writable⟩ with
            fd := some ⟨d.ino, d.offset + (randBytes s.rand s.randPos n.toNat).length⟩,
            randPos := s.randPos + (randBytes s.rand s.randPos n.toNat).length } := by
  unfold io.CopyN at h
  split at h
  · simp at h
  · rename_i d hd
    split at h
    · simp at h
    · rename_i i hi
      split at h
      · simp at h
      · simp only [Prod.mk.injEq] at h
        exact ⟨d, i, hd, hi, h.2.symm⟩

theorem Sync_ok {f : File} {s s1 : Sys} {u : Unit} (h : f.Sync s = (.ok u, s1)) :
    s1 = s.call .sync none := by
  unfold File.Sync at h
  split at h
  · simp at h
  · split at h
    · simp at h
    · simp only [Prod.mk.injEq] at h
      exact h.2.symm

theorem Truncate_ok {f : File} {s s1 : Sys} {u : Unit} (h : f.Truncate 0 s = (.ok u, s1)) :
    ∃ d i, s.fd = some d ∧ s.inodes d.ino = some i ∧
      s1 = (s.call (.truncate 0) none).setInode d.ino { i with content := [] } := by
  unfold File.Truncate at h
  split at h
  · simp at h
  · rename_i d hd
    split at h
    · simp at h
    · simp at h
    · rename_i i hf hi
      simp only [lt_self_iff_false, if_false, Prod.mk.injEq, Int.toNat_zero, resize_zero] at h
      exact ⟨d, i, hd, hi, h.2.symm⟩

theorem Close_state (f : File) (s : Sys) :
    (f.Close s).2.names = s.names ∧ (f.Close s).2.inodes = s.inodes ∧
      (f.Close s).2.rand = s.rand ∧ (f.Close s).2.randPos = s.randPos := by
  unfold File.Close
  repeat' split
  all_goals exact ⟨rfl, rfl, rfl, rfl⟩

theorem Remove_ok {name : String} {s s1 : Sys} {u : Unit} (h : os.Remove name s = (.ok u, s1)) :
    s1 = { s.call (.remove name) none with names := Function.update s.names name none } := by
  unfold os.Remove at h
  split at h
  · simp at h
  · split at h
    · simp at h
    · split at h
      · simp at h
      · simp only [Prod.mk.injEq] at h
        exact h.2.symm

theorem lastPass_shift (rand : Nat → Nat) (pos n : Nat) (c : List Nat) (k : Nat) :
    lastPass rand (pos + n) n (randBytes rand pos n) k = lastPass rand pos n c (k + 1) := by
  cases k with
  | zero => simp [lastPass]
  | succ k =>
    simp only [lastPass]
    congr 1
    ring

theorem overWritePasses_ok {f : File} {size : Int} {k : Nat} :
    ∀ {s s2 : Sys} {u : Unit} {d : Desc} {i : Inode},
      overWritePasses f size k s = (.ok u, s2) → s.fd = some d → s.inodes d.ino = some i →
      size.toNat = i.content.length →
      s2.names = s.names ∧ s2.rand = s.rand ∧
        s2.randPos = s.randPos + k * i.content.length ∧ (∃ o, s2.fd = some ⟨d.ino, o⟩) ∧
        (∀ j, j ≠ d.ino → s2.inodes j = s.inodes j) ∧
        s2.inodes d.ino =
          some ⟨lastPass s.rand s.randPos i.content.length i.content k, i.writable⟩ := by
  induction k with
  | zero =>
    intro s s2 u d i h hfd hi _
    rw [overWritePasses_zero, pure_apply] at h
    cases h
    exact ⟨rfl, rfl, by simp, ⟨d.offset, hfd⟩, fun _ _ => rfl, by simpa [lastPass] using hi⟩
  | succ k ih =>
    intro s s2 u d i h hfd hi hn
    rw [overWritePasses_succ] at h
    obtain ⟨_, s1, h1, h⟩ := bind_ok.1 h
    obtain ⟨_, s3, h3, h⟩ := bind_ok.1 h
    obtain ⟨_, s4, h4, h⟩ := bind_ok.1 h
    obtain ⟨d1, hd1, rfl⟩ := Seek_ok h1
    rw [hfd] at hd1
    cases hd1
    obtain ⟨d3, i3, hd3, hi3, rfl⟩ := CopyN_ok h3
    simp only [Sys.call] at hd3 hi3
    cases hd3
    rw [hi] at hi3
    cases hi3
    have h5 := Sync_ok h4
    subst h5
    have hlen : (randBytes s.rand s.randPos size.toNat).length = i.content.length := by
      rw [randBytes_length, hn]
    have key := ih (d := ⟨d.ino, 0 + (randBytes s.rand s.randPos size.toNat).length⟩)
      (i := ⟨randBytes s.rand s.randPos size.toNat, i.writable⟩) h rfl
      (by simp [Sys.call, Sys.setInode, writeAt_zero_full _ _ hlen])
      (by simp [randBytes_length])
    simp only [Sys.call, Sys.setInode, randBytes_length] at key
    obtain ⟨k1, k2, k3, k4, k5, k6⟩ := key
    refine ⟨k1, k2, ?_, k4, ?_, ?_⟩
    · rw [k3, hn]
      ring
    · intro j hj
      rw [k5 j hj, Function.update_noteq hj]
    · rw [k6, hn, lastPass_shift s.rand s.randPos i.content.length i.content k]

theorem discard_ok {α : Type} {m : M α} {s s1 : Sys} {u : Unit}
    (h : discard m s = (.ok u, s1)) : s1 = (m s).2 := by
  simp only [discard, Prod.mk.injEq] at h
  exact h.2.symm

theorem withDefer_ok {α β : Type} {c : M β} {b : M α} {s s2 : Sys} {a : α}
    (h : withDefer c b s = (.ok a, s2)) : ∃ s1, b s = (.ok a, s1) ∧ s2 = (c s1).2 := by
  simp only [withDefer, Prod.mk.injEq] at h
  exact ⟨(b s).2, Prod.ext h.1 rfl, h.2.symm⟩

theorem afterStat_ok {f : File} {path : String} {t d : Bool} {fi : FileInfo} {s s2 : Sys}
    {u : Unit} {D : Desc} {i : Inode}
    (h : afterStat f path t d fi s = (.ok u, s2)) (hfd : s.fd = some D)
    (hi : s.inodes D.ino = some i) (hsz : fi.size = i.content.length) :
    s2.names = (if d then Function.update s.names path none else s.names) ∧
      s2.rand = s.rand ∧ s2.randPos = s.randPos + 3 * i.content.length ∧
      (∀ j, j ≠ D.ino → s2.inodes j = s.inodes j) ∧
      s2.inodes D.ino =
        some ⟨if t then [] else overwritten s.rand s.randPos i.content, i.writable⟩ := by
  unfold afterStat at h
  obtain ⟨_, s3, h3, h⟩ := bind_ok.1 h
  obtain ⟨_, s4, h4, h⟩ := bind_ok.1 h
  obtain ⟨_, s5, h5, h⟩ := bind_ok.1 h
  -- the overwrite stage
  have A : s3.names = s.names ∧ s3.rand = s.rand ∧
      s3.randPos = s.randPos + 3 * i.content.length ∧ (∃ o, s3.fd = some ⟨D.ino, o⟩) ∧
      (∀ j, j ≠ D.ino → s3.inodes j = s.inodes j) ∧
      s3.inodes D.ino = some ⟨overwritten s.rand s.randPos i.content, i.writable⟩ := by
    by_cases hpos : fi.Size > 0
    · rw [if_pos hpos] at h3
      have hn : fi.Size.toNat = i.content.length := by
        simp [FileInfo.Size, hsz]
      have hlen : 0 < i.content.length := by
        simp only [FileInfo.Size, hsz] at hpos
        exact_mod_cast hpos
      have key := overWritePasses_ok (k := 3) h3 hfd hi hn
      simpa [overwritten, hlen, Nat.mul_comm] using key
    · rw [if_neg hpos, pure_apply] at h3
      cases h3
      have hlen : i.content.length = 0 := by
        simp only [FileInfo.Size, hsz, gt_iff_lt, not_lt] at hpos
        have : (i.content.length : Int) = 0 := le_antisymm hpos (Int.natCast_nonneg _)
        exact_mod_cast this
      refine ⟨rfl, rfl, by simp [hlen], ⟨D.offset, hfd⟩, fun _ _ => rfl, ?_⟩
      simp [overwritten, hlen, lastPass, hi]
  obtain ⟨a1, a2, a3, ⟨o, a4⟩, a5, a6⟩ := A
  -- the truncate stage
  have B : s4.names = s.names ∧ s4.rand = s.rand ∧
      s4.randPos = s.randPos + 3 * i.content.length ∧
      (∀ j, j ≠ D.ino → s4.inodes j = s.inodes j) ∧
      s4.inodes D.ino =
        some ⟨if t then [] else overwritten s.rand s.randPos i.content, i.writable⟩ := by
    cases t with
    | false =>
      simp only [Bool.false_eq_true, if_false, pure_apply] at h4 ⊢
      cases h4
      exact ⟨a1, a2, a3, a5, a6⟩
    | true =>
      simp only [if_true] at h4 ⊢
      obtain ⟨_, s6, h6, h7⟩ := bind_ok.1 h4
      obtain ⟨d6, i6, hd6, hi6, rfl⟩ := Truncate_ok h6
      have h8 := Sync_ok h7
      subst h8
      rw [a4] at hd6
      cases hd6
      rw [a6] at hi6
      cases hi6
      refine ⟨a1, a2, a3, ?_, ?_⟩
      · intro j hj
        simp only [Sys.call, Sys.setInode, Function.update_noteq hj]
        exact a5 j hj
      · simp [Sys.call, Sys.setInode]
  obtain ⟨b1, b2, b3, b5, b6⟩ := B
  -- close and unlink
  have h9 := discard_ok h5
  obtain ⟨c1, c2, c3, c4⟩ := Close_state f s4
  rw [← h9] at c1 c2 c3 c4
  cases d with
  | false =>
    simp only [Bool.false_eq_true, if_false, pure_apply] at h ⊢
    cases h
    rw [c1, c2, c3, c4]
    exact ⟨b1, b2, b3, b5, b6⟩
  | true =>
    simp only [if_true] at h ⊢
    have h10 := Remove_ok h
    subst h10
    simp only [Sys.call, c1, c2, c3, c4]
    exact ⟨by rw [b1], b2, b3, b5, b6⟩

theorem resolve_names {names : String → Option Node} :
    ∀ {fuel : Nat} {path q : String} {node : Node},
      resolve names fuel path = .ok (q, node) →
      names q = some node ∧ ∀ target, node ≠ .symlink target := by
  intro fuel
  induction fuel with
  | zero =>
    intro path q node h
    unfold resolve at h
    split at h
    · simp at h
    · simp at h
    · rename_i nd hsym hnd
      simp only [Except.ok.injEq, Prod.mk.injEq] at h
      obtain ⟨rfl, rfl⟩ := h
      exact ⟨hnd, fun target ht => hsym target ht⟩
  | succ fuel ih =>
    intro path q node h
    unfold resolve at h
    split at h
    · simp at h
    · exact ih h
    · rename_i nd hsym hnd
      simp only [Except.ok.injEq, Prod.mk.injEq] at h
      obtain ⟨rfl, rfl⟩ := h
      exact ⟨hnd, fun target ht => hsym target ht⟩

theorem openOutcome_ok {s : Sys} {name : String} {ino : Nat}
    (h : openOutcome s name = .ok ino) :
    ∃ q i, resolve s.names 40 name = .ok (q, .file ino) ∧ s.inodes ino = some i ∧
      i.writable = true ∧ s.fault = none := by
  unfold openOutcome at h
  split at h
  · simp at h
  · rename_i hf
    split at h
    · simp at h
    · split at h
      · simp at h
      · simp at h
      · simp at h
      · rename_i q ino2 hres
        split at h
        · simp at h
        · rename_i i hi
          split at h
          · rename_i hw
            simp only [Except.ok.injEq] at h
            subst h
            exact ⟨q, i, hres, hi, hw, hf⟩
          · simp at h

theorem OpenFile_ok {name : String} {s s1 : Sys} {f : File}
    (h : os.OpenFile name s = (.ok f, s1)) :
    ∃ ino, openOutcome s name = .ok ino ∧
      s1 = { s.call (.openFile name) none with fd := some ⟨ino, 0⟩ } := by
  unfold os.OpenFile at h
  split at h
  · simp at h
  · rename_i ino hino
    simp only [Prod.mk.injEq] at h
    exact ⟨ino, hino, h.2.symm⟩

theorem OpenFile_error {name : String} {s : Sys} {c : ErrVal}
    (h : openOutcome s name = .error c) :
    os.OpenFile name s =
      (.error (.pathError "open" name c),
        s.call (.openFile name) (some (.pathError "open" name c))) := by
  unfold os.OpenFile
  rw [h]

/-- The state a successful `shredFileWithOptions` leaves behind. -/
theorem shredFileWithOptions_ok {path : String} {t d : Bool} {s s2 : Sys} {u : Unit}
    (h : shredFileWithOptions path t d s = (.ok u, s2)) :
    ∃ ino i, openOutcome s path = .ok ino ∧ s.inodes ino = some i ∧
      s2.names = (if d then Function.update s.names path none else s.names) ∧
      s2.rand = s.rand ∧ s2.randPos = s.randPos + 3 * i.content.length ∧
      (∀ j, j ≠ ino → s2.inodes j = s.inodes j) ∧
      s2.inodes ino =
        some ⟨if t then [] else overwritten s.rand s.randPos i.content, i.writable⟩ := by
  rw [shredFileWithOptions_eq] at h
  obtain ⟨_, s3, h3, h⟩ := bind_ok.1 h
  obtain ⟨file, s4, h4, h⟩ := bind_ok.1 h
  simp only [fmt.Println, Prod.mk.injEq] at h3
  obtain ⟨-, rfl⟩ := h3
  obtain ⟨ino, hino, rfl⟩ := OpenFile_ok (onErr_ok.1 h4)
  obtain ⟨s5, h5, rfl⟩ := withDefer_ok h
  rw [shredOpened_eq] at h5
  obtain ⟨fi, s6, h6, h7⟩ := bind_ok.1 h5
  obtain ⟨D, i, hdd, hi, hsz, rfl⟩ := Stat_ok (onErr_ok.1 h6)
  simp only [Sys.call] at hdd hi
  cases hdd
  have key := afterStat_ok (D := ⟨ino, 0⟩) (i := i) h7 rfl hi hsz
  obtain ⟨c1, c2, c3, c4⟩ := Close_state file s5
  refine ⟨ino, i, hino, hi, ?_⟩
  rw [c1, c2, c3, c4]
  exact key

theorem run_eq {α : Type} {m : M α} {s : Sys} {a : α} (h : (m s).1 = .ok a) :
    m s = (.ok a, (m s).2) :=
  Prod.ext h rfl

theorem resolve_file {names : String → Option Node} {path : String} {ino : Nat}
    (fuel : Nat) (h : names path = some (.file ino)) :
    resolve names fuel path = .ok (path, .file ino) := by
  cases fuel <;> simp [resolve, h]

theorem openOutcome_file {s : Sys} {path : String} {ino ino2 : Nat}
    (hfile : s.names path = some (.file ino)) (h : openOutcome s path = .ok ino2) :
    ino2 = ino := by
  obtain ⟨q, i, hres, -⟩ := openOutcome_ok h
  rw [resolve_file 40 hfile] at hres
  simp only [Except.ok.injEq, Prod.mk.injEq, Node.file.injEq] at hres
  exact hres.2.symm

theorem overwritten_eq (rand : Nat → Nat) (pos : Nat) (c : List Nat) :
    overwritten rand pos c = randBytes rand (pos + 2 * c.length) c.length := by
  unfold overwritten
  by_cases h : 0 < c.length
  · simp [h, lastPass]
  · have h0 : c.length = 0 := by omega
    have hc : c = [] := List.length_eq_zero.1 h0
    subst hc
    simp [lastPass, randBytes]

/-- C1. A successful `Shred(path)` on a non-empty regular file leaves no entry for
`path` in the namespace. -/
theorem Shred_removes_path (s : Sys) (path : String) (ino : Nat) (i : Inode)
    (_hfile : s.names path = some (.file ino)) (_hino : s.inodes ino = some i)
    (_hsize : 0 < i.content.length) (h : (Shred path s).1 = .ok ()) :
    (Shred path s).2.names path = none := by
  obtain ⟨_, _, -, -, hn, -⟩ := shredFileWithOptions_ok (run_eq h)
  show (shredFileWithOptions path true true s).2.names path = none
  rw [hn]
  simp

theorem Shred_removes_path_witness : (Shred "a" demo).2.names "a" = none :=
  Shred_removes_path demo "a" 1 ⟨[1, 2, 3], true⟩ (by decide) (by decide) (by decide)
    (by decide)

/-- C2. A successful `shredFileWithOptions(path, false, false)` on a regular file
of `N` bytes leaves `path` naming the same file, and the file still has exactly
`N` bytes. -/
theorem overwrite_only_keeps_size (s : Sys) (path : String) (ino : Nat) (i : Inode)
    (hfile : s.names path = some (.file ino)) (hino : s.inodes ino = some i)
    (h : (shredFileWithOptions path false false s).1 = .ok ()) :
    (shredFileWithOptions path false false s).2.names path = some (.file ino) ∧
      ∃ i2, (shredFileWithOptions path false false s).2.inodes ino = some i2 ∧
        i2.content.length = i.content.length := by
  obtain ⟨ino2, i2, hopen, hi2, hn, -, -, -, hc⟩ := shredFileWithOptions_ok (run_eq h)
  have := openOutcome_file hfile hopen
  subst this
  rw [hino] at hi2
  cases hi2
  refine ⟨by rw [hn]; simpa using hfile, _, hc, ?_⟩
  simp [overwritten_eq, randBytes_length]

theorem overwrite_only_keeps_size_witness :
    (shredFileWithOptions "a" false false demo).2.names "a" = some (.file 1) ∧
      ∃ i2, (shredFileWithOptions "a" false false demo).2.inodes 1 = some i2 ∧
        i2.content.length = 3 :=
  overwrite_only_keeps_size demo "a" 1 ⟨[1, 2, 3], true⟩ (by decide) (by decide) (by decide)

/-- C3, as stated, fails: on the empty file `e` the call succeeds and the file
reads back as before; and on the file `a` (bytes 1, 2, 3), with a random source
that delivers 1, 2, 3, the call succeeds and the file reads back as before. -/
theorem overwrite_may_leave_original :
    ((shredFileWithOptions "e" false false demo).1 = .ok () ∧
      (shredFileWithOptions "e" false false demo).2.names "e" = demo.names "e" ∧
      (shredFileWithOptions "e" false false demo).2.inodes 2 = demo.inodes 2) ∧
    ((shredFileWithOptions "a" false false demoUnlucky).1 = .ok () ∧
      (shredFileWithOptions "a" false false demoUnlucky).2.names "a" = demoUnlucky.names "a" ∧
      (shredFileWithOptions "a" false false demoUnlucky).2.inodes 1 = demoUnlucky.inodes 1) := by
  decide

/-- C3, amended. After a successful `shredFileWithOptions(path, false, false)` on a
regular file of `N` bytes, the file at `path` holds the `N` bytes that the random
source delivered for the third pass (bytes `2N .. 3N-1` read from it during the
call); so it reads back as the original exactly when those bytes equal the
original, which is always so for an empty file. -/
theorem overwrite_only_content (s : Sys) (path : String) (ino : Nat) (i : Inode)
    (hfile : s.names path = some (.file ino)) (hino : s.inodes ino = some i)
    (h : (shredFileWithOptions path false false s).1 = .ok ()) :
    (shredFileWithOptions path false false s).2.names path = some (.file ino) ∧
      (shredFileWithOptions path false false s).2.inodes ino =
        some ⟨randBytes s.rand (s.randPos + 2 * i.content.length) i.content.length,
          i.writable⟩ ∧
      (i.content = [] → (shredFileWithOptions path false false s).2.inodes ino = some i) := by
  obtain ⟨ino2, i2, hopen, hi2, hn, -, -, -, hc⟩ := shredFileWithOptions_ok (run_eq h)
  have := openOutcome_file hfile hopen
  subst this
  rw [hino] at hi2
  cases hi2
  refine ⟨by rw [hn]; simpa using hfile, by rw [hc]; simp [overwritten_eq], ?_⟩
  intro hnil
  rw [hc]
  cases i with
  | mk c w =>
    simp only at hnil
    subst hnil
    simp [overwritten, lastPass]

theorem overwrite_only_content_witness :
    (shredFileWithOptions "a" false false demo).2.names "a" = some (.file 1) ∧
      (shredFileWithOptions "a" false false demo).2.inodes 1 =
        some ⟨randBytes demo.rand (demo.randPos + 2 * 3) 3, true⟩ ∧
      (([1, 2, 3] : List Nat) = [] →
        (shredFileWithOptions "a" false false demo).2.inodes 1 = some ⟨[1, 2, 3], true⟩) :=
  overwrite_only_content demo "a" 1 ⟨[1, 2, 3], true⟩ (by decide) (by decide) (by decide)

/-- C4. A successful `shredFile(path, false)` on a regular file of any size leaves
`path` naming the same file, now of size 0. -/
theorem shredFile_keep_truncates (s : Sys) (path : String) (ino : Nat) (i : Inode)
    (hfile : s.names path = some (.file ino)) (hino : s.inodes ino = some i)
    (h : (shredFile path false s).1 = .ok ()) :
    (shredFile path false s).2.names path = some (.file ino) ∧
      ∃ i2, (shredFile path false s).2.inodes ino = some i2 ∧ i2.content.length = 0 := by
  obtain ⟨ino2, i2, hopen, hi2, hn, -, -, -, hc⟩ := shredFileWithOptions_ok (run_eq h)
  have := openOutcome_file hfile hopen
  subst this
  refine ⟨?_, _, hc, by simp⟩
  show (shredFileWithOptions path true false s).2.names path = _
  rw [hn]
  simpa using hfile

theorem shredFile_keep_truncates_witness :
    (shredFile "a" false demo).2.names "a" = some (.file 1) ∧
      ∃ i2, (shredFile "a" false demo).2.inodes 1 = some i2 ∧ i2.content.length = 0 :=
  shredFile_keep_truncates demo "a" 1 ⟨[1, 2, 3], true⟩ (by decide) (by decide) (by decide)

theorem fileAt_some {s : Sys} {path q : String} {ino : Nat} {i : Inode}
    (h : s.fileAt path = some (q, ino, i)) :
    resolve s.names 40 path = .ok (q, .file ino) ∧ s.inodes ino = some i := by
  unfold Sys.fileAt at h
  split at h
  · rename_i q2 ino2 hres
    rcases hi : s.inodes ino2 with _ | i2
    · simp [hi] at h
    · simp only [hi, Option.map_some', Option.some.injEq, Prod.mk.injEq] at h
      obtain ⟨rfl, rfl, rfl⟩ := h
      exact ⟨hres, hi⟩
  · simp at h

/-- C5. When `path` is a symbolic link that leads to a regular file held by the
name `q`, a successful `Shred(path)` removes the entry `path`, while `q` still
names the same file, now of size 0. -/
theorem Shred_symlink (s : Sys) (path target q : String) (ino : Nat) (i : Inode)
    (hlink : s.names path = some (.symlink target))
    (hres : s.fileAt path = some (q, ino, i))
    (h : (Shred path s).1 = .ok ()) :
    (Shred path s).2.names path = none ∧
      (Shred path s).2.names q = some (.file ino) ∧
      ∃ i2, (Shred path s).2.inodes ino = some i2 ∧ i2.content.length = 0 := by
  obtain ⟨ino2, i2, hopen, hi2, hn, -, -, -, hc⟩ := shredFileWithOptions_ok (run_eq h)
  obtain ⟨hr, hi⟩ := fileAt_some hres
  obtain ⟨q3, i3, hr3, -⟩ := openOutcome_ok hopen
  rw [hr] at hr3
  simp only [Except.ok.injEq, Prod.mk.injEq, Node.file.injEq] at hr3
  obtain ⟨-, rfl⟩ := hr3
  obtain ⟨hq, -⟩ := resolve_names hr
  have hne : q ≠ path := by
    intro hqp
    rw [hqp, hlink] at hq
    simp at hq
  show (shredFileWithOptions path true true s).2.names path = none ∧
    (shredFileWithOptions path true true s).2.names q = some (.file ino) ∧
    ∃ i2, (shredFileWithOptions path true true s).2.inodes ino = some i2 ∧
      i2.content.length = 0
  rw [hn]
  refine ⟨by simp, ?_, _, hc, by simp⟩
  simp only [if_true, Function.update_noteq hne]
  exact hq

theorem Shred_symlink_witness :
    (Shred "l" demo).2.names "l" = none ∧
      (Shred "l" demo).2.names "a" = some (.file 1) ∧
      ∃ i2, (Shred "l" demo).2.inodes 1 = some i2 ∧ i2.content.length = 0 :=
  Shred_symlink demo "l" "a" "a" 1 ⟨[1, 2, 3], true⟩ (by decide) (by decide) (by decide)

/-! ## The log of `shredFileWithOptions` -/

theorem OpenFile_ok_eq {name : String} {s : Sys} {ino : Nat}
    (h : openOutcome s name = .ok ino) :
    os.OpenFile name s =
      (.ok ⟨name⟩, { s.call (.openFile name) none with fd := some ⟨ino, 0⟩ }) := by
  unfold os.OpenFile
  rw [h]

theorem shredOpened_runs (f : File) (path : String) (t d : Bool) (s : Sys) {D : Desc}
    {i : Inode} (hfd : s.fd = some D) (hi : s.inodes D.ino = some i) :
    ∃ evs, (shredOpened f path t d s).2.log = s.log ++ evs ∧
      Runs (.stat :: bodyOps path i.content.length t d) evs
        (errOf (shredOpened f path t d s).1) := by
  rw [shredOpened_eq, bind_apply]
  obtain ⟨e1, hl1, hr1⟩ :=
    exec_onErr_println [.str "Error getting file info:", .str path] (exec_stat f) s
  rcases hst : onErr f.Stat (fmt.Println [.str "Error getting file info:", .str path]) s
    with ⟨err | fi, s1⟩
  · rw [hst] at hl1 hr1
    exact ⟨e1, hl1, Runs.append_fail (a := [.stat]) hr1 (by simp [errOf])⟩
  · rw [hst] at hl1 hr1
    obtain ⟨d2, i2, hd2, hi2, hsz, -⟩ := Stat_ok (onErr_ok.1 hst)
    rw [hfd] at hd2
    cases hd2
    rw [hi] at hi2
    cases hi2
    obtain ⟨e2, hl2, hr2⟩ := exec_afterStat f path t d fi s1
    rw [hsz] at hr2
    refine ⟨e1 ++ e2, ?_, Runs.append (a := [.stat]) hr1 rfl hr2⟩
    simp only [hl2]
    simp only [] at hl1
    rw [hl1, List.append_assoc]

/-- When `open` fails, nothing else is done. -/
theorem shredFileWithOptions_open_error {path : String} {s : Sys} {c : ErrVal} (t d : Bool)
    (h : openOutcome s path = .error c) :
    (shredFileWithOptions path t d s).1 = .error (.pathError "open" path c) ∧
      (shredFileWithOptions path t d s).2.log =
        s.log ++ [⟨.openFile path, some (.pathError "open" path c)⟩] ∧
      (shredFileWithOptions path t d s).2.names = s.names ∧
      (shredFileWithOptions path t d s).2.inodes = s.inodes ∧
      (shredFileWithOptions path t d s).2.fd = s.fd ∧
      (shredFileWithOptions path t d s).2.randPos = s.randPos := by
  have h2 : openOutcome { s with stdout := s.stdout ++ [[.str "Shredding file:", .str path]] }
      path = .error c := h
  rw [shredFileWithOptions_eq]
  simp [bind_apply, fmt.Println, onErr, OpenFile_error h2, Sys.call]

/-- When `open` succeeds, the log is the `open`, then a run of `stat` and the
calls that follow it, then the deferred `close`. -/
theorem shredFileWithOptions_runs {path : String} {s : Sys} {ino : Nat} {i : Inode}
    (t d : Bool) (h : openOutcome s path = .ok ino) (hi : s.inodes ino = some i) :
    ∃ body cl, (shredFileWithOptions path t d s).2.log =
        s.log ++ (⟨.openFile path, none⟩ :: body ++ [⟨.close, cl⟩]) ∧
      Runs (.stat :: bodyOps path i.content.length t d) body
        (errOf (shredFileWithOptions path t d s).1) := by
  have h2 : openOutcome { s with stdout := s.stdout ++ [[.str "Shredding file:", .str path]] }
      path = .ok ino := h
  rw [shredFileWithOptions_eq]
  simp only [bind_apply, fmt.Println, onErr, OpenFile_ok_eq h2, withDefer]
  obtain ⟨body, hl, hr⟩ := shredOpened_runs ⟨path⟩ path t d
    ({ ({ s with stdout := s.stdout ++ [[.str "Shredding file:", .str path]] } : Sys).call
        (.openFile path) none with fd := some ⟨ino, 0⟩ }) (D := ⟨ino, 0⟩) (i := i) rfl hi
  obtain ⟨cl, hcl⟩ := Close_log ⟨path⟩ (shredOpened ⟨path⟩ path t d
    ({ ({ s with stdout := s.stdout ++ [[.str "Shredding file:", .str path]] } : Sys).call
        (.openFile path) none with fd := some ⟨ino, 0⟩ })).2
  refine ⟨body, cl, ?_, hr⟩
  rw [hcl, hl]
  simp [Sys.call]

theorem Runs.nil_inv {evs : List Event} {r : Option GoError} (h : Runs [] evs r) :
    evs = [] ∧ r = none := by
  cases h
  exact ⟨rfl, rfl⟩

theorem Runs.cons_inv {op : Op} {ops : List Op} {evs : List Event} {r : Option GoError}
    (hop : op ≠ .close) (h : Runs (op :: ops) evs r) :
    (∃ e, evs = [⟨op, some e⟩] ∧ r = some e) ∨
      (∃ rest, evs = ⟨op, none⟩ :: rest ∧ Runs ops rest r) := by
  cases h with
  | step _ h2 => exact Or.inr ⟨_, rfl, h2⟩
  | fail _ => exact Or.inl ⟨_, rfl, rfl⟩
  | closed _ => exact absurd rfl hop

theorem Runs.close_inv {ops : List Op} {evs : List Event} {r : Option GoError}
    (h : Runs (.close :: ops) evs r) :
    ∃ c rest, evs = ⟨.close, c⟩ :: rest ∧ Runs ops rest r := by
  cases h with
  | step hop _ => exact absurd rfl hop
  | fail hop => exact absurd rfl hop
  | closed h2 => exact ⟨_, _, rfl, h2⟩

/-- A run that returns `nil` made every planned call, and none but `close`
reported an error. -/
theorem Runs.of_ok {ops : List Op} {evs : List Event} {r : Option GoError}
    (h : Runs ops evs r) (hr : r = none) :
    evs.map (·.op) = ops ∧ ∀ x ∈ evs, x.op ≠ .close → x.err = none := by
  induction h with
  | done => simp
  | step hop _ ih =>
    obtain ⟨h1, h2⟩ := ih hr
    refine ⟨by simp [h1], ?_⟩
    intro x hx hxc
    rcases List.mem_cons.1 hx with rfl | hx
    · rfl
    · exact h2 x hx hxc
  | fail hop => cases hr
  | closed _ ih =>
    obtain ⟨h1, h2⟩ := ih hr
    refine ⟨by simp [h1], ?_⟩
    intro x hx hxc
    rcases List.mem_cons.1 hx with rfl | hx
    · exact absurd rfl hxc
    · exact h2 x hx hxc

/-- A run that returns an error ends with the call that reported it; every call
before it, other than `close`, reported none. -/
theorem Runs.of_error {ops : List Op} {evs : List Event} {r : Option GoError} {e : GoError}
    (h : Runs ops evs r) (hr : r = some e) :
    ∃ pre ev, evs = pre ++ [ev] ∧ ev.op ≠ .close ∧ ev.err = some e ∧
      ∀ x ∈ pre, x.op ≠ .close → x.err = none := by
  induction h with
  | done => cases hr
  | @step op ops evs r hop _ ih =>
    obtain ⟨pre, ev, h1, h2, h3, h4⟩ := ih hr
    refine ⟨⟨op, none⟩ :: pre, ev, by simp [h1], h2, h3, ?_⟩
    intro x hx hxc
    rcases List.mem_cons.1 hx with rfl | hx
    · rfl
    · exact h4 x hx hxc
  | @fail op ops e2 hop =>
    cases hr
    exact ⟨[], ⟨op, some e⟩, rfl, hop, rfl, by simp⟩
  | @closed ops evs r c _ ih =>
    obtain ⟨pre, ev, h1, h2, h3, h4⟩ := ih hr
    refine ⟨⟨.close, c⟩ :: pre, ev, by simp [h1], h2, h3, ?_⟩
    intro x hx hxc
    rcases List.mem_cons.1 hx with rfl | hx
    · exact absurd rfl hxc
    · exact h4 x hx hxc

/-- The calls logged by a run are an initial segment of the planned calls. -/
theorem Runs.ops_prefix {ops : List Op} {evs : List Event} {r : Option GoError}
    (h : Runs ops evs r) : evs.map (·.op) <+: ops := by
  induction h with
  | done => simp
  | step _ _ ih => simpa using ih
  | fail _ => simp
  | closed _ ih => simpa using ih

theorem errOf_none {α : Type} {r : Except GoError α} (h : errOf r = none) : ∃ a, r = .ok a := by
  cases r with
  | ok a => exact ⟨a, rfl⟩
  | error e => simp [errOf] at h

theorem errOf_some {α : Type} {r : Except GoError α} {e : GoError} (h : errOf r = some e) :
    r = .error e := by
  cases r with
  | ok a => simp [errOf] at h
  | error e2 =>
    simp only [errOf, Option.some.injEq] at h
    rw [h]

theorem Runs.ok_eq_map {ops : List Op} {evs : List Event} {r : Option GoError}
    (h : Runs ops evs r) (hr : r = none) (hops : ∀ op ∈ ops, op ≠ .close) :
    evs = ops.map fun op => ⟨op, none⟩ := by
  induction h with
  | done => rfl
  | step _ _ ih =>
    simp only [List.map_cons, List.cons.injEq, true_and]
    exact ih hr fun op hop => hops op (List.mem_cons_of_mem _ hop)
  | fail _ => cases hr
  | closed _ _ => exact absurd rfl (hops .close (List.mem_cons_self _ _))

theorem Runs.append_inv {a b : List Op} :
    ∀ {evs : List Event} {r : Option GoError}, Runs (a ++ b) evs r → r = none →
      ∃ e1 e2, evs = e1 ++ e2 ∧ Runs a e1 none ∧ Runs b e2 none := by
  induction a with
  | nil =>
    intro evs r h hr
    subst hr
    exact ⟨[], evs, rfl, Runs.done, h⟩
  | cons op a ih =>
    intro evs r h hr
    subst hr
    by_cases hop : op = .close
    · subst hop
      obtain ⟨c, rest, rfl, h2⟩ := Runs.close_inv h
      obtain ⟨e1, e2, rfl, h3, h4⟩ := ih h2 rfl
      exact ⟨⟨.close, c⟩ :: e1, e2, rfl, Runs.closed h3, h4⟩
    · rcases Runs.cons_inv hop h with ⟨e, -, he⟩ | ⟨rest, rfl, h2⟩
      · cases he
      · obtain ⟨e1, e2, rfl, h3, h4⟩ := ih h2 rfl
        exact ⟨⟨op, none⟩ :: e1, e2, rfl, Runs.step hop h3, h4⟩

theorem passOps_ne_close (size : Int) (k : Nat) : ∀ op ∈ passOps size k, op ≠ .close := by
  induction k with
  | zero => simp [passOps]
  | succ k ih =>
    intro op hop
    simp only [passOps, List.cons_append, List.nil_append, List.mem_cons] at hop
    rcases hop with rfl | rfl | rfl | hop
    · simp
    · simp
    · simp
    · exact ih op hop

theorem drop_succ_tail {α : Type} (l : List α) (k : Nat) : l.drop (k + 1) = l.tail.drop k := by
  cases l <;> simp

theorem fault_eq_faultAt (s : Sys) : s.fault = s.faultAt 0 := rfl

theorem faultAt_call (s : Sys) (op : Op) (e : Option GoError) (k : Nat) :
    (s.call op e).faultAt k = s.faultAt (k + 1) := by
  simp only [Sys.faultAt, Sys.call, drop_succ_tail]

theorem Stat_run {f : File} {s : Sys} {d : Desc} {i : Inode} (hfd : s.fd = some d)
    (hf : s.fault = none) (hi : s.inodes d.ino = some i) :
    f.Stat s = (.ok ⟨i.content.length⟩, s.call .stat none) := by
  unfold File.Stat
  simp only [hfd, hf, hi]

theorem Truncate_run {f : File} {s : Sys} {d : Desc} {i : Inode} (hfd : s.fd = some d)
    (hf : s.fault = none) (hi : s.inodes d.ino = some i) :
    f.Truncate 0 s =
      (.ok (), (s.call (.truncate 0) none).setInode d.ino { i with content := [] }) := by
  unfold File.Truncate
  simp [hfd, hf, hi, resize_zero]

theorem Sync_run {f : File} {s : Sys} {d : Desc} (hfd : s.fd = some d) (hf : s.fault = none) :
    f.Sync s = (.ok (), s.call .sync none) := by
  unfold File.Sync
  simp only [hfd, hf]

theorem Close_run {f : File} {s : Sys} {d : Desc} (hfd : s.fd = some d) :
    ∃ c, (f.Close s).2 = { s.call .close c with fd := none } := by
  unfold File.Close
  simp only [hfd]
  split
  · exact ⟨_, rfl⟩
  · exact ⟨_, rfl⟩

theorem Remove_run {name : String} {s : Sys} {v : Node} (hf : s.fault = none)
    (hl : leadingError s.names (leadingDirs name) = none) (hn : s.names name = some v) :
    os.Remove name s =
      (.ok (), { s.call (.remove name) none with
                  names := Function.update s.names name none }) := by
  unfold os.Remove
  simp only [hf, hl, hn]

theorem withDefer_run {α β : Type} {c : M β} {b : M α} {s s1 : Sys} {a : α}
    (h : b s = (.ok a, s1)) : withDefer c b s = (.ok a, (c s1).2) := by
  simp only [withDefer, h]

theorem openOutcome_run {s : Sys} {path : String} {ino : Nat} {i : Inode}
    (hf : s.fault = none) (hl : walkError s.names path = none)
    (hfile : s.names path = some (.file ino)) (hino : s.inodes ino = some i)
    (hw : i.writable = true) : openOutcome s path = .ok ino := by
  unfold openOutcome
  simp only [hf, hl, resolve_file 40 hfile, hino, hw, if_true]

theorem bind_run {α β : Type} {m : M α} {f : α → M β} {s s1 : Sys} {a : α}
    (h : m s = (.ok a, s1)) : (m >>= f) s = f a s1 := by
  rw [bind_apply, h]

/-- Once an empty file is open, `shredOpened` with both flags set returns no
error when no call is made to fail. -/
theorem shredOpened_empty_run {f : File} {path : String} {s : Sys} {d : Desc} {i : Inode}
    {v : Node} (hfd : s.fd = some d) (hi : s.inodes d.ino = some i)
    (hempty : i.content.length = 0) (hn : s.names path = some v)
    (hl : leadingError s.names (leadingDirs path) = none)
    (h0 : s.faultAt 0 = none) (h1 : s.faultAt 1 = none) (h2 : s.faultAt 2 = none)
    (h4 : s.faultAt 4 = none) :
    (shredOpened f path true true s).1 = .ok () := by
  have e1 : f.Stat s = (.ok ⟨i.content.length⟩, s.call .stat none) := Stat_run hfd h0 hi
  have e2 : f.Truncate 0 (s.call .stat none) =
      (.ok (), ((s.call .stat none).call (.truncate 0) none).setInode d.ino
        { i with content := [] }) :=
    Truncate_run (d := d) (i := i) hfd (by rw [fault_eq_faultAt, faultAt_call]; exact h1) hi
  have e3 : f.Sync (((s.call .stat none).call (.truncate 0) none).setInode d.ino
        { i with content := [] }) =
      (.ok (), ((((s.call .stat none).call (.truncate 0) none).setInode d.ino
        { i with content := [] }).call .sync none)) :=
    Sync_run (d := d) hfd (by
      rw [fault_eq_faultAt]
      show ((s.call .stat none).call (.truncate 0) none).faultAt 0 = none
      rw [faultAt_call, faultAt_call]
      exact h2)
  obtain ⟨c, e4⟩ := Close_run (f := f) (d := d)
    (s := ((((s.call .stat none).call (.truncate 0) none).setInode d.ino
        { i with content := [] }).call .sync none)) hfd
  have e5 : discard f.Close ((((s.call .stat none).call (.truncate 0) none).setInode d.ino
        { i with content := [] }).call .sync none) =
      (.ok (), { ((((s.call .stat none).call (.truncate 0) none).setInode d.ino
        { i with content := [] }).call .sync none).call .close c with fd := none }) := by
    simp only [discard, e4]
  have e6 : os.Remove path { ((((s.call .stat none).call (.truncate 0) none).setInode d.ino
        { i with content := [] }).call .sync none).call .close c with fd := none } =
      (.ok (), _) :=
    Remove_run (v := v) (by
      rw [fault_eq_faultAt]
      show (((((s.call .stat none).call (.truncate 0) none)).call .sync none).call
        .close c).faultAt 0 = none
      rw [faultAt_call, faultAt_call, faultAt_call, faultAt_call]
      exact h4) hl hn
  have hsz : ¬ ((⟨(i.content.length : Int)⟩ : FileInfo).Size > 0) := by
    simp [FileInfo.Size, hempty]
  rw [shredOpened_eq, bind_run (onErr_ok.2 e1)]
  unfold afterStat
  rw [if_neg hsz, M_pure_bind, if_pos rfl, M_bind_assoc, bind_run e2, bind_run e3, bind_run e5,
    if_pos rfl, e6]

/-- An empty writable file is shredded and removed when no call is made to fail. -/
theorem walkError_leading {names : String → Option Node} {path : String}
    (h : walkError names path = none) : leadingError names (leadingDirs path) = none := by
  unfold walkError at h
  split at h
  · simp at h
  · assumption

theorem Shred_empty_run {s : Sys} {path : String} {ino : Nat} {i : Inode}
    (hfile : s.names path = some (.file ino)) (hino : s.inodes ino = some i)
    (hempty : i.content.length = 0) (hw : i.writable = true)
    (hl : walkError s.names path = none)
    (h0 : s.faultAt 0 = none) (h1 : s.faultAt 1 = none) (h2 : s.faultAt 2 = none)
    (h3 : s.faultAt 3 = none) (h5 : s.faultAt 5 = none) :
    (shredFileWithOptions path true true s).1 = .ok () := by
  have ho : openOutcome { s with stdout := s.stdout ++ [[.str "Shredding file:", .str path]] }
      path = .ok ino := openOutcome_run h0 hl hfile hino hw
  have hp : fmt.Println [.str "Shredding file:", .str path] s =
      (.ok (), { s with stdout := s.stdout ++ [[.str "Shredding file:", .str path]] }) := rfl
  rw [shredFileWithOptions_eq, bind_run hp, bind_run (onErr_ok.2 (OpenFile_ok_eq ho))]
  simp only [withDefer]
  refine shredOpened_empty_run (d := ⟨ino, 0⟩) (i := i) rfl hino hempty hfile
    (walkError_leading hl) ?_ ?_ ?_ ?_
  · show (Sys.call _ (.openFile path) none).faultAt 0 = none
    rw [faultAt_call]
    exact h1
  · show (Sys.call _ (.openFile path) none).faultAt 1 = none
    rw [faultAt_call]
    exact h2
  · show (Sys.call _ (.openFile path) none).faultAt 2 = none
    rw [faultAt_call]
    exact h3
  · show (Sys.call _ (.openFile path) none).faultAt 4 = none
    rw [faultAt_call]
    exact h5

theorem since_eq {s s2 : Sys} {evs : List Event} (h : s2.log = s.log ++ evs) :
    s.since s2 = evs := by
  simp [Sys.since, h]

/-- The calls logged by `Shred` on an empty regular file, whatever fails. -/
theorem shred_empty_log (s : Sys) (path : String) (ino : Nat) (i : Inode)
    (hfile : s.names path = some (.file ino)) (hino : s.inodes ino = some i)
    (hempty : i.content.length = 0) :
    ∃ evs, (shredFileWithOptions path true true s).2.log = s.log ++ evs ∧
      (evs.map (·.op)).filter (· ≠ .close) <+:
        [.openFile path, .stat, .truncate 0, .sync, .remove path] ∧
      (⟨.truncate 0, none⟩ ∈ evs → ⟨.sync, none⟩ ∈ evs → ⟨.remove path, none⟩ ∈ evs →
        (shredFileWithOptions path true true s).1 = .ok () ∧
        (shredFileWithOptions path true true s).2.names path = none) := by
  rcases ho : openOutcome s path with c | ino2
  · obtain ⟨-, h2, -⟩ := shredFileWithOptions_open_error true true ho
    refine ⟨_, h2, by simp, ?_⟩
    intro h
    simp at h
  · have := openOutcome_file hfile ho
    subst this
    obtain ⟨body, cl, hl, hr⟩ := shredFileWithOptions_runs true true ho hino
    have hops : bodyOps path (i.content.length : Int) true true =
        [.truncate 0, .sync, .close, .remove path] := by
      simp [bodyOps, hempty]
    rw [hops] at hr
    refine ⟨_, hl, ?_, ?_⟩
    · have hp := (Runs.ops_prefix hr).filter (fun op => decide (op ≠ Op.close))
      simpa [List.filter_cons] using hp
    · intro _ _ hrm
      have hmem : (⟨.remove path, none⟩ : Event) ∈ body := by
        simpa using hrm
      have hok : errOf (shredFileWithOptions path true true s).1 = none := by
        rcases Runs.cons_inv (by simp) hr with ⟨e, rfl, -⟩ | ⟨r1, rfl, hr1⟩
        · simp at hmem
        rcases Runs.cons_inv (by simp) hr1 with ⟨e, rfl, -⟩ | ⟨r2, rfl, hr2⟩
        · simp at hmem
        rcases Runs.cons_inv (by simp) hr2 with ⟨e, rfl, -⟩ | ⟨r3, rfl, hr3⟩
        · simp at hmem
        obtain ⟨c, r4, rfl, hr4⟩ := Runs.close_inv hr3
        rcases Runs.cons_inv (by simp) hr4 with ⟨e, rfl, -⟩ | ⟨r5, rfl, hr5⟩
        · simp at hmem
        exact (Runs.nil_inv hr5).2
      obtain ⟨u, hu⟩ := errOf_none hok
      refine ⟨hu, ?_⟩
      obtain ⟨_, _, -, -, hn, -⟩ := shredFileWithOptions_ok (run_eq hu)
      rw [hn]
      simp

/-- C7. `Shred(path)` on a zero-length regular file makes no overwrite pass: apart
from `close`, the calls it logs are an initial segment of open, stat, truncate to
0, sync, unlink - no seek, no write of random data, and no sync other than the
one after the truncate.  When the truncate, the sync and the unlink are logged
as successful, `Shred` returns no error and `path` is gone from the namespace.
And the run does get there: when the file is writable, the walk to the last
component of the path meets only directories, and the system plans no failure
for the open, the stat, the truncate, the sync and the unlink (calls 0, 1, 2, 3
and 5; call 4 is the close, whose error is dropped), `Shred` returns no error,
`path` is gone, and the calls logged are exactly open, stat, truncate to 0,
sync, close, unlink and the deferred close, all but the closes reported as
successful. -/
theorem Shred_empty_file (s : Sys) (path : String) (ino : Nat) (i : Inode)
    (hfile : s.names path = some (.file ino)) (hino : s.inodes ino = some i)
    (hempty : i.content.length = 0) :
    (Shred path s).2.log = s.log ++ s.since (Shred path s).2 ∧
      ((s.since (Shred path s).2).map (·.op)).filter (· ≠ .close) <+:
        [.openFile path, .stat, .truncate 0, .sync, .remove path] ∧
      (⟨.truncate 0, none⟩ ∈ s.since (Shred path s).2 →
        ⟨.sync, none⟩ ∈ s.since (Shred path s).2 →
        ⟨.remove path, none⟩ ∈ s.since (Shred path s).2 →
        (Shred path s).1 = .ok () ∧ (Shred path s).2.names path = none) ∧
      (i.writable = true → walkError s.names path = none →
        s.faultAt 0 = none → s.faultAt 1 = none → s.faultAt 2 = none →
        s.faultAt 3 = none → s.faultAt 5 = none →
        (Shred path s).1 = .ok () ∧ (Shred path s).2.names path = none ∧
        ∃ c1 c2, s.since (Shred path s).2 =
          [⟨.openFile path, none⟩, ⟨.stat, none⟩, ⟨.truncate 0, none⟩, ⟨.sync, none⟩,
            ⟨.close, c1⟩, ⟨.remove path, none⟩, ⟨.close, c2⟩]) := by
  obtain ⟨evs, hlog, hp1, hp2⟩ := shred_empty_log s path ino i hfile hino hempty
  have hs : s.since (shredFileWithOptions path true true s).2 = evs := since_eq hlog
  show (shredFileWithOptions path true true s).2.log =
      s.log ++ s.since (shredFileWithOptions path true true s).2 ∧
    ((s.since (shredFileWithOptions path true true s).2).map (·.op)).filter (· ≠ .close) <+:
        [.openFile path, .stat, .truncate 0, .sync, .remove path] ∧
    (⟨.truncate 0, none⟩ ∈ s.since (shredFileWithOptions path true true s).2 →
        ⟨.sync, none⟩ ∈ s.since (shredFileWithOptions path true true s).2 →
        ⟨.remove path, none⟩ ∈ s.since (shredFileWithOptions path true true s).2 →
        (shredFileWithOptions path true true s).1 = .ok () ∧
        (shredFileWithOptions path true true s).2.names path = none) ∧
    (i.writable = true → walkError s.names path = none →
        s.faultAt 0 = none → s.faultAt 1 = none → s.faultAt 2 = none →
        s.faultAt 3 = none → s.faultAt 5 = none →
        (shredFileWithOptions path true true s).1 = .ok () ∧
        (shredFileWithOptions path true true s).2.names path = none ∧
        ∃ c1 c2, s.since (shredFileWithOptions path true true s).2 =
          [⟨.openFile path, none⟩, ⟨.stat, none⟩, ⟨.truncate 0, none⟩, ⟨.sync, none⟩,
            ⟨.close, c1⟩, ⟨.remove path, none⟩, ⟨.close, c2⟩])
  rw [hs]
  refine ⟨hlog, hp1, hp2, ?_⟩
  intro hw hl h0 h1 h2 h3 h5
  have hok := Shred_empty_run hfile hino hempty hw hl h0 h1 h2 h3 h5
  obtain ⟨_, _, -, -, hn, -⟩ := shredFileWithOptions_ok (run_eq hok)
  refine ⟨hok, by rw [hn]; simp, ?_⟩
  have ho : openOutcome s path = .ok ino := openOutcome_run h0 hl hfile hino hw
  obtain ⟨body, cl, hl2, hr⟩ := shredFileWithOptions_runs true true ho hino
  have hops : bodyOps path (i.content.length : Int) true true =
      [.truncate 0, .sync, .close, .remove path] := by
    simp [bodyOps, hempty]
  rw [hops, hok] at hr
  rw [hlog] at hl2
  have hev := List.append_cancel_left hl2
  rcases Runs.cons_inv (by simp) hr with ⟨e, -, he⟩ | ⟨r1, rfl, hr1⟩
  · cases he
  rcases Runs.cons_inv (by simp) hr1 with ⟨e, -, he⟩ | ⟨r2, rfl, hr2⟩
  · cases he
  rcases Runs.cons_inv (by simp) hr2 with ⟨e, -, he⟩ | ⟨r3, rfl, hr3⟩
  · cases he
  obtain ⟨c, r4, rfl, hr4⟩ := Runs.close_inv hr3
  rcases Runs.cons_inv (by simp) hr4 with ⟨e, -, he⟩ | ⟨r5, rfl, hr5⟩
  · cases he
  obtain ⟨rfl, -⟩ := Runs.nil_inv hr5
  exact ⟨c, cl, by rw [hev]; rfl⟩

theorem Shred_empty_file_witness :
    (Shred "e" demo).2.log = demo.log ++ demo.since (Shred "e" demo).2 ∧
      ((demo.since (Shred "e" demo).2).map (·.op)).filter (· ≠ .close) <+:
        [.openFile "e", .stat, .truncate 0, .sync, .remove "e"] ∧
      ((Shred "e" demo).1 = .ok () ∧ (Shred "e" demo).2.names "e" = none) ∧
      ((Shred "e" demo).1 = .ok () ∧ (Shred "e" demo).2.names "e" = none ∧
        ∃ c1 c2, demo.since (Shred "e" demo).2 =
          [⟨.openFile "e", none⟩, ⟨.stat, none⟩, ⟨.truncate 0, none⟩, ⟨.sync, none⟩,
            ⟨.close, c1⟩, ⟨.remove "e", none⟩, ⟨.close, c2⟩]) :=
  ⟨(Shred_empty_file demo "e" 2 ⟨[], true⟩ (by decide) (by decide) (by decide)).1,
    (Shred_empty_file demo "e" 2 ⟨[], true⟩ (by decide) (by decide) (by decide)).2.1,
    (Shred_empty_file demo "e" 2 ⟨[], true⟩ (by decide) (by decide) (by decide)).2.2.1
      (by decide) (by decide) (by decide),
    (Shred_empty_file demo "e" 2 ⟨[], true⟩ (by decide) (by decide) (by decide)).2.2.2
      (by decide) (by decide) (by decide) (by decide) (by decide) (by decide) (by decide)⟩

/-- C8. When `shredFileWithOptions` returns no error on a file whose size is
`N > 0`, the calls it logged are: open, stat, then three times the triple (seek to
offset 0, copy `N` bytes from the random source, sync), then the truncate and its
sync if requested, close, the unlink if requested, and the deferred close; the
random source has been read `3 * N` bytes further.  More generally a successful
`overWriteWithRandomData(file, size, passes)` logs exactly `passes` such triples. -/
theorem three_passes (s : Sys) (path q : String) (t d : Bool) (ino : Nat) (i : Inode)
    (hres : s.fileAt path = some (q, ino, i)) (hpos : 0 < i.content.length)
    (h : (shredFileWithOptions path t d s).1 = .ok ()) :
    (∃ c1 c2, (shredFileWithOptions path t d s).2.log =
      s.log ++
        ([⟨.openFile path, none⟩, ⟨.stat, none⟩,
          ⟨.seek 0 0, none⟩, ⟨.copyN i.content.length, none⟩, ⟨.sync, none⟩,
          ⟨.seek 0 0, none⟩, ⟨.copyN i.content.length, none⟩, ⟨.sync, none⟩,
          ⟨.seek 0 0, none⟩, ⟨.copyN i.content.length, none⟩, ⟨.sync, none⟩] ++
        (if t then [⟨.truncate 0, none⟩, ⟨.sync, none⟩] else []) ++
        [⟨.close, c1⟩] ++
        (if d then [⟨.remove path, none⟩] else []) ++
        [⟨.close, c2⟩])) ∧
    (shredFileWithOptions path t d s).2.randPos = s.randPos + 3 * i.content.length ∧
    (∀ (file : File) (size passes : Int) (s0 : Sys),
      (overWriteWithRandomData file size passes s0).1 = .ok () →
      (overWriteWithRandomData file size passes s0).2.log =
        s0.log ++ (List.replicate passes.toNat
          [(⟨.seek 0 0, none⟩ : Event), ⟨.copyN size, none⟩, ⟨.sync, none⟩]).flatten) := by
  obtain ⟨ino2, i2, hopen, hi2, -, -, hrp, -, -⟩ := shredFileWithOptions_ok (run_eq h)
  obtain ⟨hr, hi⟩ := fileAt_some hres
  obtain ⟨q3, i3, hr3, -⟩ := openOutcome_ok hopen
  rw [hr] at hr3
  simp only [Except.ok.injEq, Prod.mk.injEq, Node.file.injEq] at hr3
  obtain ⟨-, rfl⟩ := hr3
  rw [hi] at hi2
  cases hi2
  refine ⟨?_, hrp, ?_⟩
  · obtain ⟨body, cl, hl, hruns⟩ := shredFileWithOptions_runs t d hopen hi
    rw [h] at hruns
    have hsz : ((i.content.length : Int) > 0) := by exact_mod_cast hpos
    have hops : Op.stat :: bodyOps path (i.content.length : Int) t d =
        (Op.stat :: passOps i.content.length 3 ++
            (if t then [.truncate 0, .sync] else [])) ++
          (.close :: (if d then [.remove path] else [])) := by
      simp [bodyOps, hsz]
    rw [hops] at hruns
    obtain ⟨e1, e2, rfl, h1, h2⟩ := Runs.append_inv hruns rfl
    obtain ⟨c1, e3, rfl, h3⟩ := Runs.close_inv h2
    have k1 := Runs.ok_eq_map h1 rfl (by
      intro op hop
      simp only [List.cons_append, List.mem_cons, List.mem_append] at hop
      rcases hop with rfl | hop | hop
      · simp
      · exact passOps_ne_close _ 3 op hop
      · cases t <;> simp at hop
        rcases hop with rfl | rfl <;> simp)
    have k3 := Runs.ok_eq_map h3 rfl (by
      intro op hop
      cases d <;> simp at hop
      subst hop
      simp)
    refine ⟨c1, cl, ?_⟩
    rw [hl, k1, k3]
    cases t <;> cases d <;> simp [passOps]
  · intro file size passes s0 h0
    obtain ⟨evs, hl, hruns⟩ := exec_overWritePasses file size passes.toNat s0
    have h0b : (overWritePasses file size passes.toNat s0).1 = .ok () := h0
    rw [h0b] at hruns
    have k := Runs.ok_eq_map hruns rfl (passOps_ne_close size passes.toNat)
    show (overWritePasses file size passes.toNat s0).2.log = _
    rw [hl, k]
    congr 1
    generalize passes.toNat = n
    induction n with
    | zero => rfl
    | succ n ih =>
      simp only [passOps, List.replicate_succ, List.flatten_cons, List.map_append, ih]
      rfl

theorem three_passes_witness :
    (∃ c1 c2, (shredFileWithOptions "a" true true demo).2.log =
      demo.log ++
        ([⟨.openFile "a", none⟩, ⟨.stat, none⟩,
          ⟨.seek 0 0, none⟩, ⟨.copyN 3, none⟩, ⟨.sync, none⟩,
          ⟨.seek 0 0, none⟩, ⟨.copyN 3, none⟩, ⟨.sync, none⟩,
          ⟨.seek 0 0, none⟩, ⟨.copyN 3, none⟩, ⟨.sync, none⟩] ++
        (if true then [⟨.truncate 0, none⟩, ⟨.sync, none⟩] else []) ++
        [⟨.close, c1⟩] ++
        (if true then [⟨.remove "a", none⟩] else []) ++
        [⟨.close, c2⟩])) ∧
    (shredFileWithOptions "a" true true demo).2.randPos = demo.randPos + 3 * 3 :=
  ⟨(three_passes demo "a" "a" true true 1 ⟨[1, 2, 3], true⟩ (by decide) (by decide)
      (by decide)).1,
    (three_passes demo "a" "a" true true 1 ⟨[1, 2, 3], true⟩ (by decide) (by decide)
      (by decide)).2.1⟩

/-- C9. In every run of `shredFileWithOptions` in which a call other than `close`
reports an error, the log of the run splits as `pre ++ ev :: post`: `ev` is the
failing call and its error is the one returned; every call before it (other than
a `close`) succeeded, so `ev` is the first to fail; and after it only `close` is
called - no further pass, truncate, sync or unlink. -/
theorem first_failure_returned (s : Sys) (path : String) (t d : Bool) (evs : List Event)
    (hlog : (shredFileWithOptions path t d s).2.log = s.log ++ evs)
    (hfail : ∃ x ∈ evs, x.op ≠ .close ∧ x.err ≠ none) :
    ∃ pre ev post e, evs = pre ++ ev :: post ∧ ev.op ≠ .close ∧ ev.err = some e ∧
      (shredFileWithOptions path t d s).1 = .error e ∧
      (∀ x ∈ pre, x.op ≠ .close → x.err = none) ∧ (∀ x ∈ post, x.op = .close) := by
  rcases ho : openOutcome s path with c | ino
  · obtain ⟨h1, h2, -⟩ := shredFileWithOptions_open_error t d ho
    rw [h2] at hlog
    have := List.append_cancel_left hlog
    subst this
    exact ⟨[], _, [], _, rfl, by simp, rfl, h1, by simp, by simp⟩
  · obtain ⟨_, i, -, hi, -, -⟩ := openOutcome_ok ho
    obtain ⟨body, cl, hl, hruns⟩ := shredFileWithOptions_runs t d ho hi
    rw [hl] at hlog
    have := List.append_cancel_left hlog
    subst this
    rcases hres : errOf (shredFileWithOptions path t d s).1 with _ | e
    · rw [hres] at hruns
      obtain ⟨-, hall⟩ := Runs.of_ok hruns rfl
      obtain ⟨x, hx, hxc, hxe⟩ := hfail
      simp only [List.cons_append, List.mem_cons, List.mem_append, List.mem_singleton,
        List.not_mem_nil, or_false] at hx
      rcases hx with rfl | hx | rfl
      · exact absurd rfl hxe
      · exact absurd (hall x hx hxc) hxe
      · exact absurd rfl hxc
    · rw [hres] at hruns
      obtain ⟨pre, ev, rfl, hev1, hev2, hpre⟩ := Runs.of_error hruns rfl
      refine ⟨⟨.openFile path, none⟩ :: pre, ev, [⟨.close, cl⟩], e, by simp, hev1, hev2,
        errOf_some hres, ?_, by simp⟩
      intro x hx hxc
      rcases List.mem_cons.1 hx with rfl | hx
      · rfl
      · exact hpre x hx hxc

theorem first_failure_returned_witness :
    ∃ pre ev post e,
      ([⟨.openFile "a", none⟩, ⟨.stat, none⟩, ⟨.seek 0 0, none⟩, ⟨.copyN 3, none⟩,
        ⟨.sync, none⟩, ⟨.seek 0 0, none⟩,
        ⟨.copyN 3, some (.pathError "write" "a" (.errno 28))⟩, ⟨.close, none⟩] : List Event) =
        pre ++ ev :: post ∧ ev.op ≠ .close ∧ ev.err = some e ∧
      (shredFileWithOptions "a" true true demoFault).1 = .error e ∧
      (∀ x ∈ pre, x.op ≠ .close → x.err = none) ∧ (∀ x ∈ post, x.op = .close) :=
  first_failure_returned demoFault "a" true true _ (by decide) (by decide)

/-! ## The errors the operating system reports -/

theorem planValid_tail {plan : List (Option Fault)} (h : planValid plan = true) :
    planValid plan.tail = true := by
  cases plan with
  | nil => exact h
  | cons x xs =>
    simp only [planValid, List.all_cons, Bool.and_eq_true] at h
    exact h.2

theorem fault_valid {s : Sys} {ft : Fault} (h : planValid s.plan = true)
    (hf : s.fault = some ft) : validErrno ft.cause = true := by
  unfold Sys.fault at hf
  cases hp : s.plan with
  | nil => simp [hp] at hf
  | cons x xs =>
    rw [hp] at h hf
    simp only [planValid, List.all_cons, Bool.and_eq_true] at h
    simp only [List.head?_cons, Option.join] at hf
    subst hf
    exact h.1

theorem resolve_error {names : String → Option Node} :
    ∀ {fuel : Nat} {path : String} {n : Nat},
      resolve names fuel path = .error n → n = ENOENT ∨ n = ELOOP := by
  intro fuel
  induction fuel with
  | zero =>
    intro path n h
    unfold resolve at h
    split at h
    · simp only [Except.error.injEq] at h
      exact Or.inl h.symm
    · simp only [Except.error.injEq] at h
      exact Or.inr h.symm
    · simp at h
  | succ fuel ih =>
    intro path n h
    unfold resolve at h
    split at h
    · simp only [Except.error.injEq] at h
      exact Or.inl h.symm
    · exact ih h
    · simp at h

theorem leadingError_cases {names : String → Option Node} :
    ∀ {ps : List String} {n : Nat},
      leadingError names ps = some n → n = ENOENT ∨ n = ELOOP ∨ n = ENOTDIR := by
  intro ps
  induction ps with
  | nil =>
    intro n h
    simp [leadingError] at h
  | cons p ps ih =>
    intro n h
    unfold leadingError at h
    split at h
    · rename_i m hm
      simp only [Option.some.injEq] at h
      subst h
      rcases resolve_error hm with rfl | rfl
      · exact Or.inl rfl
      · exact Or.inr (Or.inl rfl)
    · exact ih h
    · simp only [Option.some.injEq] at h
      exact Or.inr (Or.inr h.symm)

theorem leadingError_valid {names : String → Option Node} {ps : List String} {n : Nat}
    (h : leadingError names ps = some n) : validErrno (.errno n) = true := by
  rcases leadingError_cases h with rfl | rfl | rfl <;> decide

theorem walkError_valid {names : String → Option Node} {path : String} {n : Nat}
    (h : walkError names path = some n) : validErrno (.errno n) = true := by
  unfold walkError at h
  split at h
  · rename_i m hm
    simp only [Option.some.injEq] at h
    subst h
    exact leadingError_valid hm
  · split at h
    · simp only [Option.some.injEq] at h
      subst h
      decide
    · simp at h

theorem openOutcome_valid {s : Sys} {name : String} {c : ErrVal}
    (hp : planValid s.plan = true) (h : openOutcome s name = .error c) :
    validErrno c = true := by
  unfold openOutcome at h
  split at h
  · rename_i ft hft
    simp only [Except.error.injEq] at h
    subst h
    exact fault_valid hp hft
  · split at h
    · rename_i n hn
      simp only [Except.error.injEq] at h
      subst h
      exact walkError_valid hn
    · split at h
      · rename_i n hn
        simp only [Except.error.injEq] at h
        subst h
        rcases resolve_error hn with rfl | rfl <;> decide
      · simp only [Except.error.injEq] at h
        subst h
        decide
      · simp only [Except.error.injEq] at h
        subst h
        decide
      · split at h
        · simp only [Except.error.injEq] at h
          subst h
          decide
        · split at h
          · simp at h
          · simp only [Except.error.injEq] at h
            subst h
            decide

theorem valid_pure {α : Type} (a : α) : ValidM (pure a : M α) := by
  intro s hp
  exact ⟨hp, fun e he => by simp [pure_apply] at he⟩

theorem valid_bind {α β : Type} {m : M α} {f : α → M β} (hm : ValidM m)
    (hf : ∀ x, ValidM (f x)) : ValidM (m >>= f) := by
  intro s hp
  obtain ⟨h1, h2⟩ := hm s hp
  have hb := bind_apply m f s
  rcases hms : m s with ⟨err | x, s1⟩
  · rw [hms] at h1 h2 hb
    rw [hb]
    refine ⟨h1, fun e he => h2 e ?_⟩
    simpa using he
  · rw [hms] at h1 hb
    rw [hb]
    exact hf x s1 h1

theorem valid_ite {α : Type} {c : Prop} [Decidable c] {m1 m2 : M α}
    (h1 : ValidM m1) (h2 : ValidM m2) : ValidM (if c then m1 else m2) := by
  by_cases hc : c <;> simp [hc, h1, h2]

theorem valid_onErr {α : Type} {m : M α} {h : M Unit} (hm : ValidM m) (hh : ValidM h) :
    ValidM (onErr m h) := by
  intro s hp
  obtain ⟨h1, h2⟩ := hm s hp
  unfold onErr
  rcases hms : m s with ⟨err | x, s1⟩
  · rw [hms] at h1 h2
    exact ⟨(hh s1 h1).1, fun e he => h2 e he⟩
  · rw [hms] at h1
    exact ⟨h1, fun e he => by simp at he⟩

theorem valid_discard {α : Type} {m : M α} (hm : ValidM m) : ValidM (discard m) := by
  intro s hp
  exact ⟨(hm s hp).1, fun e he => by simp [discard] at he⟩

theorem valid_withDefer {α β : Type} {c : M β} {b : M α} (hc : ValidM c) (hb : ValidM b) :
    ValidM (withDefer c b) := by
  intro s hp
  obtain ⟨h1, h2⟩ := hb s hp
  exact ⟨(hc _ h1).1, fun e he => h2 e he⟩

theorem valid_println (args : List PrintArg) : ValidM (fmt.Println args) := by
  intro s hp
  exact ⟨hp, fun e he => by simp [fmt.Println] at he⟩

theorem valid_openFile (name : String) : ValidM (os.OpenFile name) := by
  intro s hp
  rcases ho : openOutcome s name with c | ino
  · rw [OpenFile_error ho]
    refine ⟨planValid_tail hp, fun e he => ?_⟩
    simp only [Except.error.injEq] at he
    subst he
    exact openOutcome_valid hp ho
  · rw [OpenFile_ok_eq ho]
    exact ⟨planValid_tail hp, fun e he => by simp at he⟩

theorem valid_stat (f : File) : ValidM f.Stat := by
  intro s hp
  unfold File.Stat
  repeat' split
  all_goals constructor
  all_goals first
    | exact planValid_tail hp
    | exact hp
    | (intro e he
       cases he <;> first
         | rfl
         | exact fault_valid hp (by assumption))

theorem valid_seek (f : File) (offset whence : Int) : ValidM (f.Seek offset whence) := by
  intro s hp
  unfold File.Seek
  repeat' split
  all_goals constructor
  all_goals first
    | exact planValid_tail hp
    | exact hp
    | (intro e he
       cases he <;> first
         | rfl
         | exact fault_valid hp (by assumption))

theorem valid_copyN (f : File) (n : Int) : ValidM (io.CopyN f n) := by
  intro s hp
  unfold io.CopyN
  repeat' split
  all_goals constructor
  all_goals first
    | exact planValid_tail hp
    | exact hp
    | (intro e he
       cases he <;> first
         | rfl
         | exact fault_valid hp (by assumption))

theorem valid_sync (f : File) : ValidM f.Sync := by
  intro s hp
  unfold File.Sync
  repeat' split
  all_goals constructor
  all_goals first
    | exact planValid_tail hp
    | exact hp
    | (intro e he
       cases he <;> first
         | rfl
         | exact fault_valid hp (by assumption))

theorem valid_truncate (f : File) (size : Int) : ValidM (f.Truncate size) := by
  intro s hp
  unfold File.Truncate
  repeat' split
  all_goals constructor
  all_goals first
    | exact planValid_tail hp
    | exact hp
    | (intro e he
       cases he <;> first
         | rfl
         | exact fault_valid hp (by assumption))

theorem valid_close (f : File) : ValidM f.Close := by
  intro s hp
  unfold File.Close
  repeat' split
  all_goals constructor
  all_goals first
    | exact planValid_tail hp
    | exact hp
    | (intro e he
       cases he <;> first
         | rfl
         | exact fault_valid hp (by assumption))

theorem valid_remove (name : String) : ValidM (os.Remove name) := by
  intro s hp
  unfold os.Remove
  repeat' split
  all_goals constructor
  all_goals first
    | exact planValid_tail hp
    | exact hp
    | (intro e he
       cases he <;> first
         | rfl
         | exact fault_valid hp (by assumption)
         | exact leadingError_valid (by assumption))

theorem valid_overWritePasses (f : File) (size : Int) (k : Nat) :
    ValidM (overWritePasses f size k) := by
  induction k with
  | zero => exact valid_pure ()
  | succ k ih =>
    rw [overWritePasses_succ]
    exact valid_bind (valid_seek f 0 0) fun _ =>
      valid_bind (valid_copyN f size) fun _ => valid_bind (valid_sync f) fun _ => ih

theorem valid_shredFileWithOptions (path : String) (t d : Bool) :
    ValidM (shredFileWithOptions path t d) := by
  rw [shredFileWithOptions_eq]
  refine valid_bind (valid_println _) fun _ => ?_
  refine valid_bind (valid_onErr (valid_openFile path) (valid_println _)) fun file => ?_
  refine valid_withDefer (valid_close file) ?_
  rw [shredOpened_eq]
  refine valid_bind (valid_onErr (valid_stat file) (valid_println _)) fun lstat => ?_
  unfold afterStat
  refine valid_bind (valid_ite (valid_overWritePasses file _ _) (valid_pure ())) fun _ => ?_
  refine valid_bind (valid_ite ?_ (valid_pure ())) fun _ => ?_
  · exact valid_bind (valid_truncate file 0) fun _ => valid_sync file
  · exact valid_bind (valid_discard (valid_close file)) fun _ =>
      valid_ite (valid_remove path) (valid_pure ())

theorem intOfUintptr_small {n : Nat} (h : n < 4096) : intOfUintptr n = n := by
  unfold intOfUintptr
  have h1 : n % 2 ^ 64 = n := Nat.mod_eq_of_lt (by omega)
  rw [h1, if_pos (by omega)]

/-- C10. The exit status of `main`, in a world whose system calls report error
numbers in `1 .. 4095`: it is 0 when `Shred` returns no error; for every error
it is not 0; for a path error that wraps an error number it is that number; for
every other error it is 1. -/
theorem exit_status (s : Sys) (prog path : String) (rest : List String)
    (hplan : planValid s.plan = true) :
    ((Shred path s).1 = .ok () → (main (prog :: path :: rest) s).1 = 0) ∧
    (∀ e, (Shred path s).1 = .error e →
      (main (prog :: path :: rest) s).1 ≠ 0 ∧
      (∀ op p n, e = .pathError op p (.errno n) →
        (main (prog :: path :: rest) s).1 = n) ∧
      ((∀ op p n, e ≠ .pathError op p (.errno n)) →
        (main (prog :: path :: rest) s).1 = 1)) := by
  have hv := (valid_shredFileWithOptions path true true s hplan).2
  change ∀ e, (Shred path s).1 = .error e → e.osValid = true at hv
  rcases hs : Shred path s with ⟨e | u, s1⟩
  · have hval := hv e (by rw [hs])
    refine ⟨fun h => by simp at h, ?_⟩
    intro e2 he2
    simp only [Except.error.injEq] at he2
    subst he2
    simp only [main, hs]
    cases e with
    | bare c => simp [exitCodeOf]
    | pathError op p c =>
      cases c with
      | errno n =>
        simp only [GoError.osValid, validErrno, decide_eq_true_eq] at hval
        simp only [exitCodeOf, intOfUintptr_small hval.2]
        refine ⟨by exact_mod_cast (by omega : n ≠ 0), ?_, ?_⟩
        · intro op2 p2 n2 h2
          simp only [GoError.pathError.injEq, ErrVal.errno.injEq] at h2
          rw [h2.2.2]
        · intro h2
          exact absurd rfl (h2 op p n)
      | errClosed => simp [exitCodeOf]
      | text msg => simp [exitCodeOf]
  · refine ⟨fun _ => by simp [main, hs], fun e he => by simp at he⟩

theorem exit_status_witness :
    (main ["go-shred", "a"] demoFault).1 ≠ 0 ∧
      (∀ op p n, GoError.pathError "write" "a" (.errno 28) = .pathError op p (.errno n) →
        (main ["go-shred", "a"] demoFault).1 = n) ∧
      ((∀ op p n, GoError.pathError "write" "a" (.errno 28) ≠ .pathError op p (.errno n)) →
        (main ["go-shred", "a"] demoFault).1 = 1) :=
  (exit_status demoFault "go-shred" "a" [] (by decide)).2 _ (by decide)

end GoShred
